import Mathlib

set_option maxRecDepth 16384

/-!
A verification development for the Focus Planner Obsidian plugin.

The TypeScript sources are shallowly embedded in Lean:

* documents are `String`s, processed internally as `List Char` after
  splitting on the newline character exactly as `content.split('\n')` does;
* JavaScript `Date` values are modelled as integer epoch milliseconds with a
  fixed UTC offset (all `Date` arithmetic the plugin performs is calendar
  arithmetic on year/month/day plus a time of day, which the fixed-offset
  model reproduces exactly);
* fallible operations return `Except`, mirroring thrown `Error`s;
* `NaN`-producing paths (`parseInt` on non-numeric text, invalid `Date`s)
  are modelled with `Option`, `none` standing for `NaN` / Invalid Date.
-/

/-! ## Character-list utilities (JS string primitives) -/

/-- `content.split('\n')`: split a character list at every newline.
The result is always nonempty, and never contains a newline. -/
def splitNl : List Char → List (List Char)
  | [] => [[]]
  | c :: cs =>
    if c = '\n' then [] :: splitNl cs
    else
      match splitNl cs with
      | [] => [[c]]
      | h :: t => (c :: h) :: t

/-- `lines.join('\n')`: interleave a newline between the lines. -/
def joinNl : List (List Char) → List Char
  | [] => []
  | [l] => l
  | l :: l' :: ls => l ++ '\n' :: joinNl (l' :: ls)

/-- Boolean prefix test, modelling `String.prototype.startsWith`. -/
def isPre : List Char → List Char → Bool
  | [], _ => true
  | _ :: _, [] => false
  | a :: as, b :: bs => a == b && isPre as bs

/-- Boolean substring test, modelling `String.prototype.includes`. -/
def containsSeq (pat : List Char) : List Char → Bool
  | [] => pat.isEmpty
  | l@(_ :: rest) => isPre pat l || containsSeq pat rest

/-- `String.prototype.trim`: drop whitespace from both ends. -/
def trimChars (l : List Char) : List Char :=
  ((l.dropWhile Char.isWhitespace).reverse.dropWhile Char.isWhitespace).reverse

/-- `String.prototype.toLowerCase`, character by character. -/
def lowerChars (l : List Char) : List Char :=
  l.map Char.toLower

/-- `s.split(sep)` for a single-character separator. -/
def splitOnChar (sep : Char) : List Char → List (List Char)
  | [] => [[]]
  | c :: cs =>
    if c = sep then [] :: splitOnChar sep cs
    else
      match splitOnChar sep cs with
      | [] => [[c]]
      | h :: t => (c :: h) :: t

/-! ### Lemmas about the utilities -/

theorem splitNl_ne_nil (cs : List Char) : splitNl cs ≠ [] := by
  cases cs with
  | nil => simp [splitNl]
  | cons c cs =>
    simp only [splitNl]
    split
    · simp
    · split <;> simp

theorem splitNl_of_no_newline (l : List Char) (hl : '\n' ∉ l) : splitNl l = [l] := by
  induction l with
  | nil => rfl
  | cons c cs ih =>
    have hc : ¬(c = '\n') := fun h => hl (by simp [h])
    have hcs : '\n' ∉ cs := fun h => hl (by simp [h])
    simp only [splitNl, if_neg hc, ih hcs]

theorem splitNl_append_newline (l rest : List Char) (hl : '\n' ∉ l) :
    splitNl (l ++ '\n' :: rest) = l :: splitNl rest := by
  induction l with
  | nil => simp [splitNl]
  | cons c cs ih =>
    have hc : ¬(c = '\n') := fun h => hl (by simp [h])
    have hcs : '\n' ∉ cs := fun h => hl (by simp [h])
    simp only [List.cons_append, splitNl, if_neg hc]
    rw [show cs.append ('\n' :: rest) = cs ++ '\n' :: rest from rfl, ih hcs]

theorem splitNl_no_newline (cs : List Char) : ∀ l ∈ splitNl cs, '\n' ∉ l := by
  induction cs with
  | nil =>
    intro l hl
    simp only [splitNl, List.mem_singleton] at hl
    subst hl; simp
  | cons c cs ih =>
    intro l hl
    simp only [splitNl] at hl
    by_cases hc : c = '\n'
    · rw [if_pos hc] at hl
      rcases List.mem_cons.mp hl with rfl | hl
      · simp
      · exact ih l hl
    · rw [if_neg hc] at hl
      rcases hs : splitNl cs with _ | ⟨h, t⟩
      · exact absurd hs (splitNl_ne_nil cs)
      · rw [hs] at hl
        rcases List.mem_cons.mp hl with rfl | hl
        · intro hmem
          rcases List.mem_cons.mp hmem with h1 | h1
          · exact hc h1.symm
          · exact ih h (by rw [hs]; simp) h1
        · exact ih l (by rw [hs]; simp [hl])

theorem splitNl_joinNl (ls : List (List Char)) (hne : ls ≠ [])
    (hnl : ∀ l ∈ ls, '\n' ∉ l) : splitNl (joinNl ls) = ls := by
  induction ls with
  | nil => exact absurd rfl hne
  | cons l ls ih =>
    cases ls with
    | nil => simpa [joinNl] using splitNl_of_no_newline l (hnl l (by simp))
    | cons l' ls' =>
      have h1 : '\n' ∉ l := hnl l (by simp)
      simp only [joinNl]
      rw [splitNl_append_newline l _ h1]
      rw [ih (by simp) (fun x hx => hnl x (by simp [hx]))]

theorem joinNl_splitNl (cs : List Char) : joinNl (splitNl cs) = cs := by
  induction cs with
  | nil => rfl
  | cons c cs ih =>
    by_cases hc : c = '\n'
    · subst hc
      simp only [splitNl, if_pos rfl]
      rcases hs : splitNl cs with _ | ⟨h, t⟩
      · exact absurd hs (splitNl_ne_nil cs)
      · rw [hs] at ih
        simp only [joinNl, List.nil_append]
        rw [ih]
    · simp only [splitNl, if_neg hc]
      rcases hs : splitNl cs with _ | ⟨h, t⟩
      · exact absurd hs (splitNl_ne_nil cs)
      · rw [hs] at ih
        cases t with
        | nil =>
          simp only [joinNl] at ih ⊢
          rw [ih]
        | cons t0 ts =>
          simp only [joinNl, List.cons_append] at ih ⊢
          rw [ih]

theorem isPre_iff (pat l : List Char) : isPre pat l = true ↔ ∃ rest, l = pat ++ rest := by
  induction pat generalizing l with
  | nil =>
    constructor
    · intro _; exact ⟨l, rfl⟩
    · intro _; rfl
  | cons p ps ih =>
    cases l with
    | nil =>
      simp only [isPre]
      constructor
      · intro h; exact absurd h (by simp)
      · rintro ⟨rest, h⟩; simp at h
    | cons a as =>
      simp only [isPre, Bool.and_eq_true, beq_iff_eq, ih]
      constructor
      · rintro ⟨rfl, rest, rfl⟩; exact ⟨rest, rfl⟩
      · rintro ⟨rest, h⟩
        injection h with h1 h2
        exact ⟨h1.symm, rest, h2⟩

theorem containsSeq_iff (pat l : List Char) :
    containsSeq pat l = true ↔ ∃ pre post, l = pre ++ pat ++ post := by
  induction l with
  | nil =>
    constructor
    · intro h
      cases pat with
      | nil => exact ⟨[], [], rfl⟩
      | cons p ps => simp [containsSeq] at h
    · rintro ⟨pre, post, h⟩
      cases pre with
      | cons _ _ => simp at h
      | nil =>
        cases pat with
        | nil => rfl
        | cons _ _ => simp at h
  | cons c cs ih =>
    simp only [containsSeq, Bool.or_eq_true, ih, isPre_iff]
    constructor
    · rintro (⟨rest, h⟩ | ⟨pre, post, h⟩)
      · exact ⟨[], rest, by simp [h]⟩
      · exact ⟨c :: pre, post, by simp [h]⟩
    · rintro ⟨pre, post, h⟩
      cases pre with
      | nil => left; exact ⟨post, by simpa using h⟩
      | cons p pre' =>
        right
        injection h with h1 h2
        exact ⟨pre', post, h2⟩

theorem isPre_append (pat rest : List Char) : isPre pat (pat ++ rest) = true :=
  (isPre_iff pat _).2 ⟨rest, rfl⟩

theorem containsSeq_of_append (pat pre post : List Char) :
    containsSeq pat (pre ++ pat ++ post) = true :=
  (containsSeq_iff pat _).2 ⟨pre, post, rfl⟩

theorem dropWhile_append_singleton {p : Char → Bool} {c : Char} (hc : p c = false)
    (l : List Char) : List.dropWhile p (l ++ [c]) = List.dropWhile p l ++ [c] := by
  induction l with
  | nil => simp [List.dropWhile, hc]
  | cons a as ih =>
    by_cases ha : p a
    · simp [List.dropWhile_cons, ha, ih]
    · simp [List.dropWhile_cons, ha]

theorem trimChars_cons_of_not_ws {c : Char} (hc : c.isWhitespace = false) (t : List Char) :
    trimChars (c :: t) = c :: (t.reverse.dropWhile Char.isWhitespace).reverse := by
  unfold trimChars
  rw [List.dropWhile_cons]
  simp only [hc, if_false, Bool.false_eq_true]
  rw [List.reverse_cons, dropWhile_append_singleton hc, List.reverse_append]
  simp

/-- The head of a trimmed list that begins with a non-whitespace character. -/
theorem isPre_single_trimChars {c : Char} (hc : c.isWhitespace = false) (t : List Char) :
    isPre [c] (trimChars (c :: t)) = true := by
  rw [trimChars_cons_of_not_ws hc]
  simp [isPre]

/-! ## Decimal rendering of numbers (JS `String(n)` / template interpolation) -/

def digitChar (d : Nat) : Char := Char.ofNat (48 + d)

def natToCharsAux : Nat → Nat → List Char → List Char
  | 0, _, acc => acc
  | fuel + 1, n, acc =>
    if n = 0 then acc else natToCharsAux fuel (n / 10) (digitChar (n % 10) :: acc)

/-- Decimal digits of a natural number, most significant first. -/
def natToChars (n : Nat) : List Char :=
  if n = 0 then ['0'] else natToCharsAux n n []

/-- JS string conversion of an integer. -/
def intToChars (i : Int) : List Char :=
  if i < 0 then '-' :: natToChars i.natAbs else natToChars i.natAbs

/-- `String(n).padStart(2, '0')` for the hour/minute values used below. -/
def pad2 (n : Nat) : List Char :=
  let s := natToChars n
  if s.length < 2 then '0' :: s else s

theorem natToCharsAux_mem (fuel n : Nat) (acc : List Char) :
    ∀ ch ∈ natToCharsAux fuel n acc, ch ∈ acc ∨ ∃ d, d < 10 ∧ ch = digitChar d := by
  induction fuel generalizing n acc with
  | zero => intro ch h; exact Or.inl h
  | succ fuel ih =>
    intro ch h
    simp only [natToCharsAux] at h
    split at h
    · exact Or.inl h
    · rcases ih (n / 10) (digitChar (n % 10) :: acc) ch h with hmem | hd
      · rcases List.mem_cons.mp hmem with rfl | hmem
        · exact Or.inr ⟨n % 10, Nat.mod_lt _ (by omega), rfl⟩
        · exact Or.inl hmem
      · exact Or.inr hd

theorem digitChar_ne_newline {d : Nat} (hd : d < 10) : digitChar d ≠ '\n' := by
  interval_cases d <;> decide

theorem newline_not_mem_natToChars (n : Nat) : '\n' ∉ natToChars n := by
  unfold natToChars
  split
  · decide
  · intro h
    rcases natToCharsAux_mem n n [] '\n' h with h | ⟨d, hd, hdc⟩
    · simp at h
    · exact digitChar_ne_newline hd hdc.symm

theorem newline_not_mem_intToChars (i : Int) : '\n' ∉ intToChars i := by
  unfold intToChars
  split
  · intro h
    rcases List.mem_cons.mp h with h | h
    · simp at h
    · exact newline_not_mem_natToChars _ h
  · exact newline_not_mem_natToChars _

theorem newline_not_mem_pad2 (n : Nat) : '\n' ∉ pad2 n := by
  show '\n' ∉ (if (natToChars n).length < 2 then '0' :: natToChars n else natToChars n)
  split
  · intro h
    rcases List.mem_cons.mp h with h | h
    · simp at h
    · exact newline_not_mem_natToChars _ h
  · exact newline_not_mem_natToChars _

/-! ## `parseInt` (radix 10) -/

def digitsAcc (acc : Nat) : List Char → Nat
  | [] => acc
  | c :: cs => if c.isDigit then digitsAcc (acc * 10 + (c.toNat - 48)) cs else acc

/-- JS `parseInt(s)` in radix 10: skip leading whitespace, optional sign,
then the maximal run of decimal digits; `none` is `NaN`.  (The `0x` hex
prefix recognised by `parseInt` is not modelled; no call site passes hex.) -/
def parseIntChars (s : List Char) : Option Int :=
  let cs := s.dropWhile Char.isWhitespace
  let p : Bool × List Char :=
    match cs with
    | '-' :: rest => (true, rest)
    | '+' :: rest => (false, rest)
    | _ => (false, cs)
  match p.2 with
  | c :: _ =>
    if c.isDigit then
      let v : Int := Int.ofNat (digitsAcc 0 p.2)
      some (if p.1 then -v else v)
    else none
  | [] => none

/-! ## JS `Date` model: epoch milliseconds, fixed UTC offset

`daysFromCivil`/`civilFromDays` convert between a day number (days since
1970-01-01) and a Gregorian calendar date; `daysFromCivil` is linear in the
day-of-month argument, which reproduces JS `Date` field overflow
(e.g. month 13, day 32) exactly. -/

def daysFromCivil (y m d : Int) : Int :=
  let y := y - (if m ≤ 2 then 1 else 0)
  let era := Int.fdiv y 400
  let yoe := y - era * 400
  let mp := Int.emod (m + 9) 12
  let doy := Int.fdiv (153 * mp + 2) 5 + d - 1
  let doe := yoe * 365 + Int.fdiv yoe 4 - Int.fdiv yoe 100 + doy
  era * 146097 + doe - 719468

def civilFromDays (z : Int) : Int × Int × Int :=
  let z := z + 719468
  let era := Int.fdiv z 146097
  let doe := z - era * 146097
  let yoe := Int.fdiv (doe - Int.fdiv doe 1460 + Int.fdiv doe 36524 - Int.fdiv doe 146096) 365
  let y := yoe + era * 400
  let doy := doe - (365 * yoe + Int.fdiv yoe 4 - Int.fdiv yoe 100)
  let mp := Int.fdiv (5 * doy + 2) 153
  let d := doy - Int.fdiv (153 * mp + 2) 5 + 1
  let m := mp + (if mp < 10 then 3 else -9)
  (y + (if m ≤ 2 then 1 else 0), m, d)

/-- `new Date(y, monthIndex, d, h, mi, s)` (and `Date.UTC`, identical in the
fixed-offset model), including the JS mapping of years 0–99 to 1900–1999. -/
def mkDateMs (y m d h mi s : Int) : Int :=
  let y := if 0 ≤ y ∧ y ≤ 99 then y + 1900 else y
  let y' := y + Int.fdiv m 12
  let m' := Int.emod m 12 + 1
  daysFromCivil y' m' d * 86400000 + h * 3600000 + mi * 60000 + s * 1000

/-- `date.getDay()`: 0 = Sunday … 6 = Saturday. -/
def getDayJS (t : Int) : Int := Int.emod (Int.fdiv t 86400000 + 4) 7

/-- `d.setDate(d.getDate() + k)`. -/
def addDaysJS (t k : Int) : Int := t + k * 86400000

/-- `d.setMonth(d.getMonth() + k)`, with day-of-month overflow. -/
def addMonthsJS (t k : Int) : Int :=
  let z := Int.fdiv t 86400000
  let tod := t - z * 86400000
  let c := civilFromDays z
  let mi := (c.2.1 - 1) + k
  daysFromCivil (c.1 + Int.fdiv mi 12) (Int.emod mi 12 + 1) c.2.2 * 86400000 + tod

/-- `d.setFullYear(d.getFullYear() + k)`, with Feb 29 overflow. -/
def addYearsJS (t k : Int) : Int :=
  let z := Int.fdiv t 86400000
  let tod := t - z * 86400000
  let c := civilFromDays z
  daysFromCivil (c.1 + k) c.2.1 c.2.2 * 86400000 + tod

/-- `formatTime`: `HH:MM` from `getHours`/`getMinutes`. -/
def formatTime (t : Int) : List Char :=
  pad2 (Int.emod (Int.fdiv t 3600000) 24).toNat ++ ':' :: pad2 (Int.emod (Int.fdiv t 60000) 60).toNat

theorem newline_not_mem_formatTime (t : Int) : '\n' ∉ formatTime t := by
  unfold formatTime
  intro h
  rcases List.mem_append.mp h with h | h
  · exact newline_not_mem_pad2 _ h
  · rcases List.mem_cons.mp h with h | h
    · simp at h
    · exact newline_not_mem_pad2 _ h

/-! ## iCalendar date/time parsing -/

/-- `dtString.replace(/^.*:/, '')`: the text after the last colon. -/
def afterLastColon (cs : List Char) : List Char :=
  (cs.reverse.takeWhile (· ≠ ':')).reverse

/-- `s.substring(a, b)` for `a ≤ b`. -/
def subChars (cs : List Char) (a b : Nat) : List Char :=
  (cs.drop a).take (b - a)

/-- `CalDavClient.parseIcsDateTime`: all-day `YYYYMMDD` (policy default 9:00),
`...Z` UTC, or floating local time.  `none` models an Invalid Date. -/
def parseIcsDateTime (dt : List Char) : Option Int :=
  let cs := afterLastColon dt
  if cs.length = 8 then
    match parseIntChars (subChars cs 0 4), parseIntChars (subChars cs 4 6),
        parseIntChars (subChars cs 6 8) with
    | some y, some mo, some d => some (mkDateMs y (mo - 1) d 9 0 0)
    | _, _, _ => none
  else if cs.getLast? = some 'Z' then
    match parseIntChars (subChars cs 0 4), parseIntChars (subChars cs 4 6),
        parseIntChars (subChars cs 6 8), parseIntChars (subChars cs 9 11),
        parseIntChars (subChars cs 11 13), parseIntChars (subChars cs 13 15) with
    | some y, some mo, some d, some h, some mi, some s =>
      some (mkDateMs y (mo - 1) d h mi s)
    | _, _, _, _, _, _ => none
  else
    match parseIntChars (subChars cs 0 4), parseIntChars (subChars cs 4 6),
        parseIntChars (subChars cs 6 8) with
    | some y, some mo, some d =>
      some (mkDateMs y (mo - 1) d ((parseIntChars (subChars cs 9 11)).getD 0)
        ((parseIntChars (subChars cs 11 13)).getD 0)
        ((parseIntChars (subChars cs 13 15)).getD 0))
    | _, _, _ => none

/-- `FeishuApi.parseRRuleDate`: `YYYYMMDDTHHMMSSZ` or `YYYYMMDD`. -/
def parseRRuleDate (cs : List Char) : Option Int :=
  if containsSeq ['T'] cs then
    match parseIntChars (subChars cs 0 4), parseIntChars (subChars cs 4 6),
        parseIntChars (subChars cs 6 8), parseIntChars (subChars cs 9 11),
        parseIntChars (subChars cs 11 13), parseIntChars (subChars cs 13 15) with
    | some y, some mo, some d, some h, some mi, some s =>
      some (mkDateMs y (mo - 1) d h mi s)
    | _, _, _, _, _, _ => none
  else
    match parseIntChars (subChars cs 0 4), parseIntChars (subChars cs 4 6),
        parseIntChars (subChars cs 6 8) with
    | some y, some mo, some d => some (mkDateMs y (mo - 1) d 0 0 0)
    | _, _, _ => none

/-! ## Recurrence expansion (`expandRecurrence`, identical in both clients
up to the UNTIL date parser) -/

/-- `rrule.split(';')` → `part.split('=')` → keep `key`/`value` when both are
truthy (nonempty); later occurrences of a key overwrite earlier ones. -/
def ruleParts (rrule : List Char) : List (List Char × List Char) :=
  (splitOnChar ';' rrule).filterMap fun part =>
    match splitOnChar '=' part with
    | key :: value :: _ =>
      if key ≠ [] ∧ value ≠ [] then some (key, value) else none
    | _ => none

def lookupRule (parts : List (List Char × List Char)) (key : List Char) : Option (List Char) :=
  (parts.reverse.find? (fun p => p.1 == key)).map (·.2)

def dayCodeOf (n : Int) : List Char :=
  if n = 0 then ['S', 'U'] else if n = 1 then ['M', 'O'] else if n = 2 then ['T', 'U']
  else if n = 3 then ['W', 'E'] else if n = 4 then ['T', 'H'] else if n = 5 then ['F', 'R']
  else ['S', 'A']

/-- `matchesByDay`: `byDay.some(d => d.includes(dayCode))`. -/
def matchesByDay (t : Int) (byDay : List (List Char)) : Bool :=
  byDay.any fun d => containsSeq (dayCodeOf (getDayJS t)) d

/-- `if (count && instanceCount >= count) break`: JS truthiness makes
`COUNT=0` (and `NaN`, modelled as `none`) never break. -/
def countBreak (count : Option Int) (icount : Nat) : Bool :=
  match count with
  | some c => decide (c ≠ 0) && decide ((icount : Int) ≥ c)
  | none => false

structure RecurCtx where
  freq : Option (List Char)
  interval : Option Int
  byDay : List (List Char)
  count : Option Int
  repeatEnd : Int
  queryStart : Int
  queryEnd : Int
  duration : Int

/-- The in-range-and-BYDAY test guarding `instances.push`. -/
def pushCond (ctx : RecurCtx) (cur : Int) : Bool :=
  decide (cur + ctx.duration ≥ ctx.queryStart) && decide (cur ≤ ctx.queryEnd) &&
    (ctx.byDay.isEmpty || matchesByDay cur ctx.byDay)

/-- The `switch (freq)` advancing `current`: `some next` continues the loop
with `next` (which is `none` for an Invalid Date caused by a `NaN`
interval); `none` is the unknown-frequency default, which returns `[]`. -/
def expandStep (ctx : RecurCtx) (cur : Int) : Option (Option Int) :=
  match ctx.freq with
  | some f =>
    if f = "DAILY".toList then some (ctx.interval.map (addDaysJS cur))
    else if f = "WEEKLY".toList then
      if ctx.byDay.isEmpty then some (ctx.interval.map (fun k => addDaysJS cur (7 * k)))
      else some (some (addDaysJS cur 1))
    else if f = "MONTHLY".toList then some (ctx.interval.map (addMonthsJS cur))
    else if f = "YEARLY".toList then some (ctx.interval.map (addYearsJS cur))
    else none
  | none => none

/-- The `for (let i = 0; i < maxIterations && current <= repeatEnd; i++)`
loop.  `none` for `current` models an Invalid Date (every comparison on it
is false, so the loop exits); the unknown-frequency default discards all
accumulated instances and returns `[]`, as in the source. -/
def expandLoop (ctx : RecurCtx) : Nat → Option Int → Nat → List Int → List Int
  | 0, _, _, acc => acc
  | fuel + 1, cur?, icount, acc =>
    match cur? with
    | none => acc
    | some cur =>
      if ¬(cur ≤ ctx.repeatEnd) then acc
      else if countBreak ctx.count icount then acc
      else
        match expandStep ctx cur with
        | none => []
        | some next =>
          expandLoop ctx fuel next
            (if pushCond ctx cur then icount + 1 else icount)
            (if pushCond ctx cur then acc ++ [cur] else acc)

def rruleUntil (parseDate : List Char → Option Int) (rrule : String) : Option Int :=
  match lookupRule (ruleParts rrule.toList) "UNTIL".toList with
  | some v => parseDate v
  | none => none

def rruleCount (rrule : String) : Option Int :=
  match lookupRule (ruleParts rrule.toList) "COUNT".toList with
  | some v => parseIntChars v
  | none => none

/-- `repeatEnd`: `queryEnd`, lowered to UNTIL when that is present, valid and
earlier (an Invalid UNTIL date compares false and leaves `queryEnd`). -/
def rruleRepeatEnd (parseDate : List Char → Option Int) (rrule : String) (queryEnd : Int) : Int :=
  match rruleUntil parseDate rrule with
  | some u => if u < queryEnd then u else queryEnd
  | none => queryEnd

/-- The parsed rule fields of `expandRecurrence`. -/
def recurCtxOf (parseDate : List Char → Option Int) (rrule : String)
    (queryStart queryEnd duration : Int) : RecurCtx where
  freq := lookupRule (ruleParts rrule.toList) "FREQ".toList
  interval :=
    match lookupRule (ruleParts rrule.toList) "INTERVAL".toList with
    | some v => parseIntChars v
    | none => some 1
  byDay :=
    match lookupRule (ruleParts rrule.toList) "BYDAY".toList with
    | some v => splitOnChar ',' v
    | none => []
  count := rruleCount rrule
  repeatEnd := rruleRepeatEnd parseDate rrule queryEnd
  queryStart := queryStart
  queryEnd := queryEnd
  duration := duration

/-- `expandRecurrence(eventStart, duration, rrule, queryStart, queryEnd)`,
parameterised by the UNTIL date parser (the only difference between the
CalDAV and the REST client's copies). -/
def expandRecurrenceWith (parseDate : List Char → Option Int)
    (eventStart duration : Int) (rrule : String) (queryStart queryEnd : Int) : List Int :=
  expandLoop (recurCtxOf parseDate rrule queryStart queryEnd duration)
    1000 (some eventStart) 0 []

/-- `CalDavClient.expandRecurrence`. -/
def expandRecurrenceCalDav (eventStart duration : Int) (rrule : String)
    (queryStart queryEnd : Int) : List Int :=
  expandRecurrenceWith parseIcsDateTime eventStart duration rrule queryStart queryEnd

/-- `FeishuApi.expandRecurrence`. -/
def expandRecurrenceFeishu (eventStart duration : Int) (rrule : String)
    (queryStart queryEnd : Int) : List Int :=
  expandRecurrenceWith parseRRuleDate eventStart duration rrule queryStart queryEnd

theorem expandLoop_bounds (ctx : RecurCtx) (fuel : Nat) :
    ∀ (cur? : Option Int) (icount : Nat) (acc : List Int),
      icount = acc.length →
      (∀ t ∈ acc, t ≤ ctx.queryEnd ∧ t ≤ ctx.repeatEnd) →
      (∀ t ∈ expandLoop ctx fuel cur? icount acc, t ≤ ctx.queryEnd ∧ t ≤ ctx.repeatEnd) ∧
      (expandLoop ctx fuel cur? icount acc).length ≤ acc.length + fuel ∧
      (∀ c, ctx.count = some c → 0 < c → (acc.length : Int) ≤ c →
        ((expandLoop ctx fuel cur? icount acc).length : Int) ≤ c) := by
  induction fuel with
  | zero =>
    intro cur? icount acc hic hacc
    refine ⟨hacc, by simp [expandLoop], fun c _ _ hle => by simpa [expandLoop] using hle⟩
  | succ fuel ih =>
    intro cur? icount acc hic hacc
    match cur? with
    | none =>
      refine ⟨by simpa [expandLoop] using hacc, by simp [expandLoop], ?_⟩
      intro c _ _ hle
      simpa [expandLoop] using hle
    | some cur =>
      by_cases hre : cur ≤ ctx.repeatEnd
      · by_cases hcb : countBreak ctx.count icount = true
        · rw [show expandLoop ctx (fuel + 1) (some cur) icount acc = acc by
            simp [expandLoop, hre, hcb]]
          exact ⟨hacc, by omega, fun c _ _ hle => hle⟩
        · rcases hstep : expandStep ctx cur with _ | next
          · rw [show expandLoop ctx (fuel + 1) (some cur) icount acc = [] by
              simp [expandLoop, hre, hcb, hstep]]
            exact ⟨by simp, by simp, fun c _ hc _ => by simpa using le_of_lt hc⟩
          · by_cases hp : pushCond ctx cur = true
            · rw [show expandLoop ctx (fuel + 1) (some cur) icount acc =
                  expandLoop ctx fuel next (icount + 1) (acc ++ [cur]) by
                simp [expandLoop, hre, hcb, hstep, hp]]
              have hqe : cur ≤ ctx.queryEnd := by
                have := hp
                unfold pushCond at this
                simp only [Bool.and_eq_true, decide_eq_true_eq] at this
                exact this.1.2
              have hacc' : ∀ t ∈ acc ++ [cur], t ≤ ctx.queryEnd ∧ t ≤ ctx.repeatEnd := by
                intro t ht
                rcases List.mem_append.mp ht with ht | ht
                · exact hacc t ht
                · rcases List.mem_singleton.mp ht with rfl
                  exact ⟨hqe, hre⟩
              have hic' : icount + 1 = (acc ++ [cur]).length := by simp [← hic]
              obtain ⟨r1, r2, r3⟩ := ih next (icount + 1) (acc ++ [cur]) hic' hacc'
              refine ⟨r1, by simpa using (by omega : (acc ++ [cur]).length + fuel ≤ acc.length + (fuel + 1)) |>.trans' r2, ?_⟩
              intro c hc hcpos hle
              have hlt : (acc.length : Int) < c := by
                by_contra hge
                have : icount = acc.length := hic
                have : countBreak ctx.count icount = true := by
                  rw [hc]
                  unfold countBreak
                  simp only [Bool.and_eq_true, decide_eq_true_eq]
                  constructor
                  · omega
                  · rw [hic]; omega
                exact hcb this
              exact r3 c hc hcpos (by simp; omega)
            · rw [show expandLoop ctx (fuel + 1) (some cur) icount acc =
                  expandLoop ctx fuel next icount acc by
                simp [expandLoop, hre, hcb, hstep, hp]]
              obtain ⟨r1, r2, r3⟩ := ih next icount acc hic hacc
              exact ⟨r1, by omega, r3⟩
      · rw [show expandLoop ctx (fuel + 1) (some cur) icount acc = acc by
          simp [expandLoop, hre]]
        exact ⟨hacc, by omega, fun c _ _ hle => hle⟩

/-- C5: for every recurrence rule and query window, `expandRecurrence` (either
client's copy: `parseDate` is the UNTIL parser that distinguishes them)
terminates with no instance after `min(UNTIL, queryEnd)`, at most COUNT
instances when COUNT is present with a positive value, and at most 1000
instances — the hard iteration cap — with the accumulated prefix returned
when a bound strikes. -/
theorem expandRecurrence_bounds (parseDate : List Char → Option Int)
    (eventStart duration : Int) (rrule : String) (queryStart queryEnd : Int) :
    (∀ t ∈ expandRecurrenceWith parseDate eventStart duration rrule queryStart queryEnd,
        t ≤ queryEnd ∧ ∀ u, rruleUntil parseDate rrule = some u → t ≤ min u queryEnd) ∧
    (∀ c, rruleCount rrule = some c → 0 < c →
        ((expandRecurrenceWith parseDate eventStart duration rrule
          queryStart queryEnd).length : Int) ≤ c) ∧
    (expandRecurrenceWith parseDate eventStart duration rrule queryStart queryEnd).length
      ≤ 1000 := by
  obtain ⟨r1, r2, r3⟩ :=
    expandLoop_bounds (recurCtxOf parseDate rrule queryStart queryEnd duration)
      1000 (some eventStart) 0 [] rfl (by simp)
  refine ⟨?_, ?_, ?_⟩
  · intro t ht
    have h := r1 t ht
    refine ⟨h.1, ?_⟩
    intro u hu
    have h2 : t ≤ rruleRepeatEnd parseDate rrule queryEnd := h.2
    have h3 : rruleRepeatEnd parseDate rrule queryEnd =
        if u < queryEnd then u else queryEnd := by
      unfold rruleRepeatEnd
      rw [hu]
    rw [h3] at h2
    have hu' : t ≤ u := by split at h2 <;> omega
    exact le_min hu' h.1
  · intro c hc hpos
    exact r3 c hc hpos (by simp; omega)
  · simpa using r2

/-- C5 counterexample: `COUNT=0` is a present COUNT, but zero is falsy in
the loop's `if (count && instanceCount >= count) break`, so the expansion
emits 6 instances instead of at most 0. -/
theorem expandRecurrence_count_zero_not_bounding :
    rruleCount "FREQ=DAILY;COUNT=0" = some 0 ∧
    (expandRecurrenceFeishu 0 3600000 "FREQ=DAILY;COUNT=0" 0 432000000).length = 6 := by
  constructor <;> decide

theorem expandRecurrence_bounds_witness :
    (0 : Int) < 3 ∧
    ((expandRecurrenceCalDav 0 3600000 "FREQ=DAILY;COUNT=3" 0 864000000).length : Int) ≤ 3 :=
  ⟨by decide,
    (expandRecurrence_bounds parseIcsDateTime 0 3600000 "FREQ=DAILY;COUNT=3"
      0 864000000).2.1 3 (by decide) (by decide)⟩

/-- C6: `FREQ=WEEKLY;BYDAY=MO,WE,FR` starting Monday 2025-01-06 09:00
(epoch ms 1736154000000 in the fixed-offset model), queried over the two
weeks starting that Monday at midnight, yields exactly the 6 instances on
the Mondays, Wednesdays and Fridays of those two weeks — one day apart
within each week, which weekly jumping could not produce. -/
theorem expandRecurrence_weekly_byday_two_weeks :
    getDayJS 1736154000000 = 1 ∧
    expandRecurrenceCalDav 1736154000000 3600000 "FREQ=WEEKLY;BYDAY=MO,WE,FR"
        1736121600000 1737331199999 =
      [1736154000000, 1736326800000, 1736499600000, 1736758800000, 1736931600000,
        1737104400000] ∧
    (expandRecurrenceCalDav 1736154000000 3600000 "FREQ=WEEKLY;BYDAY=MO,WE,FR"
        1736121600000 1737331199999).length = 6 ∧
    (expandRecurrenceCalDav 1736154000000 3600000 "FREQ=WEEKLY;BYDAY=MO,WE,FR"
        1736121600000 1737331199999).all
      (fun t => getDayJS t = 1 || getDayJS t = 3 || getDayJS t = 5) = true := by
  refine ⟨by decide, by decide, by decide, by decide⟩

/-! ## Event categories (`types.ts`) -/

inductive EventCategory where
  | focus
  | meeting
  | personal
  | rest
  | admin
deriving DecidableEq, Repr

/-- The fixed priority order of `categorizeEvent` in both remote clients. -/
def categoryOrder : List EventCategory :=
  [EventCategory.rest, EventCategory.meeting, EventCategory.personal,
    EventCategory.admin, EventCategory.focus]

/-- The nested `for` loops of `categorizeEvent`: the first category in the
order list one of whose keywords occurs, lowercased, in the lowercased
title. -/
def categorizeLoop (keywords : EventCategory → List String) (lowerTitle : List Char) :
    List EventCategory → Option EventCategory
  | [] => none
  | cat :: rest =>
    if (keywords cat).any (fun kw => containsSeq (lowerChars kw.toList) lowerTitle) then
      some cat
    else categorizeLoop keywords lowerTitle rest

/-- `CalDavClient.categorizeEvent` (and `FeishuApi.categorizeEvent`, which is
the same loop over its own built-in keyword table): the first category in
`categoryOrder` one of whose keywords occurs, case-insensitively, in the
title; no match defaults to Meeting. -/
def categorizeEvent (keywords : EventCategory → List String) (title : String) : EventCategory :=
  match categorizeLoop keywords (lowerChars title.toList) categoryOrder with
  | some c => c
  | none => EventCategory.meeting

/-- The keyword table hard-coded in `FeishuApi.categorizeEvent`. -/
def feishuDefaultKeywords : EventCategory → List String
  | EventCategory.focus => ["专注", "学习", "阅读", "代码", "demo", "论文"]
  | EventCategory.meeting => ["会议", "讨论", "周会", "seminar", "oneone", "sync", "meeting"]
  | EventCategory.personal => ["家庭", "个人", "晚间"]
  | EventCategory.rest => ["午休", "休息", "break"]
  | EventCategory.admin => ["报销", "行政", "review"]

/-! ## `TaskParser.inferCategory` -/

/-- The fields of a parsed task consulted by `inferCategory` (the source
interface's other fields — status, priority, dates, pomodoro estimate,
locator — do not enter the categorisation). -/
structure ParsedTask where
  title : String
  tags : List String
deriving DecidableEq, Repr

/-- `(task.title + ' ' + task.tags.join(' ')).toLowerCase()`. -/
def inferText (t : ParsedTask) : List Char :=
  lowerChars (t.title ++ " " ++ String.intercalate " " t.tags).toList

def meetingTaskPats : List String := ["会议", "讨论", "sync", "meeting", "周会", "seminar", "oneone"]

def personalTaskPats : List String := ["家", "爸", "妈", "gym", "个人", "生活", "湿疹", "挂号"]

def adminTaskPats : List String := ["报销", "行政", "申请", "oa"]

def restTaskPats : List String := ["休息", "午休", "break"]

/-- `TaskParser.inferCategory`: four fixed regex alternations of literals
tested against the lowercased title-plus-tags text, in the order Meeting,
Personal, Admin, Rest; no match defaults to Focus. -/
def inferCategory (t : ParsedTask) : EventCategory :=
  if meetingTaskPats.any (fun kw => containsSeq kw.toList (inferText t)) then
    EventCategory.meeting
  else if personalTaskPats.any (fun kw => containsSeq kw.toList (inferText t)) then
    EventCategory.personal
  else if adminTaskPats.any (fun kw => containsSeq kw.toList (inferText t)) then
    EventCategory.admin
  else if restTaskPats.any (fun kw => containsSeq kw.toList (inferText t)) then
    EventCategory.rest
  else EventCategory.focus

/-- Modelled from the spec: ordered keyword classification.  The first
category in the list one of whose keywords matches the title
case-insensitively wins; otherwise the default. -/
def firstMatchCategory (pairs : List (EventCategory × List String))
    (dflt : EventCategory) (title : String) : EventCategory :=
  match pairs with
  | [] => dflt
  | p :: rest =>
    if p.2.any (fun kw => containsSeq (lowerChars kw.toList) (lowerChars title.toList)) then
      p.1
    else firstMatchCategory rest dflt title

theorem any_contains_lower_eq (pats : List String) (text : List Char)
    (hp : ∀ p ∈ pats, lowerChars p.toList = p.toList) :
    (pats.any fun kw => containsSeq (lowerChars kw.toList) text) =
      (pats.any fun kw => containsSeq kw.toList text) := by
  induction pats with
  | nil => rfl
  | cons p ps ih =>
    simp only [List.any_cons]
    rw [hp p (by simp), ih (fun q hq => hp q (by simp [hq]))]

/-- C8 counterexample: the task categorizer is not Rest-first.  The title
below contains both a rest keyword (休息) and a meeting keyword (会议);
Rest-first priority would give Rest, but `inferCategory` checks Meeting
first and returns Meeting. -/
theorem inferCategory_not_rest_first :
    (restTaskPats.any fun kw => containsSeq kw.toList (inferText ⟨"休息会议", []⟩)) = true ∧
    inferCategory ⟨"休息会议", []⟩ = EventCategory.meeting ∧
    EventCategory.meeting ≠ EventCategory.rest := by
  refine ⟨by decide, by decide, by decide⟩

/-- C8 as amended: the remote-event categorizer does check Rest → Meeting →
Personal → Admin → Focus over the configured keywords, case-insensitively,
first match winning, defaulting to Meeting; but `inferCategory` checks its
own fixed patterns in the order Meeting → Personal → Admin → Rest against
title-plus-tags, defaulting to Focus. -/
theorem categorize_priority_orders :
    (∀ (keywords : EventCategory → List String) (title : String),
      categorizeEvent keywords title =
        firstMatchCategory
          [(EventCategory.rest, keywords EventCategory.rest),
            (EventCategory.meeting, keywords EventCategory.meeting),
            (EventCategory.personal, keywords EventCategory.personal),
            (EventCategory.admin, keywords EventCategory.admin),
            (EventCategory.focus, keywords EventCategory.focus)]
          EventCategory.meeting title) ∧
    (∀ t : ParsedTask,
      inferCategory t =
        firstMatchCategory
          [(EventCategory.meeting, meetingTaskPats),
            (EventCategory.personal, personalTaskPats),
            (EventCategory.admin, adminTaskPats),
            (EventCategory.rest, restTaskPats)]
          EventCategory.focus (t.title ++ " " ++ String.intercalate " " t.tags)) := by
  constructor
  · intro keywords title
    simp only [categorizeEvent, categoryOrder, categorizeLoop, firstMatchCategory]
    split_ifs <;> rfl
  · intro t
    simp only [firstMatchCategory]
    rw [show lowerChars (t.title ++ " " ++ String.intercalate " " t.tags).toList =
      inferText t from rfl]
    rw [any_contains_lower_eq meetingTaskPats (inferText t) (by decide),
      any_contains_lower_eq personalTaskPats (inferText t) (by decide),
      any_contains_lower_eq adminTaskPats (inferText t) (by decide),
      any_contains_lower_eq restTaskPats (inferText t) (by decide)]
    simp only [inferCategory]

theorem categorize_priority_orders_witness :
    categorizeEvent feishuDefaultKeywords "午休一下" =
      firstMatchCategory
        [(EventCategory.rest, feishuDefaultKeywords EventCategory.rest),
          (EventCategory.meeting, feishuDefaultKeywords EventCategory.meeting),
          (EventCategory.personal, feishuDefaultKeywords EventCategory.personal),
          (EventCategory.admin, feishuDefaultKeywords EventCategory.admin),
          (EventCategory.focus, feishuDefaultKeywords EventCategory.focus)]
        EventCategory.meeting "午休一下" ∧
    inferCategory ⟨"报销差旅", ["工作"]⟩ =
      firstMatchCategory
        [(EventCategory.meeting, meetingTaskPats),
          (EventCategory.personal, personalTaskPats),
          (EventCategory.admin, adminTaskPats),
          (EventCategory.rest, restTaskPats)]
        EventCategory.focus ("报销差旅" ++ " " ++ String.intercalate " " ["工作"]) :=
  ⟨categorize_priority_orders.1 feishuDefaultKeywords "午休一下",
    categorize_priority_orders.2 ⟨"报销差旅", ["工作"]⟩⟩

/-! ## Cross-calendar deduplication (`FeishuApi.getEvents`) -/

/-- The fields of a `CalendarEvent` that enter the deduplication (the other
fields — id, end, category, source, remote id — ride along unchanged and are
represented by `id` and `category` here). -/
structure FeishuEvent where
  id : String
  title : String
  start : Int
  category : EventCategory
deriving DecidableEq, Repr

/-- The dedup key: the template string `${event.title}-${event.start.getTime()}`. -/
def eventKey (e : FeishuEvent) : List Char :=
  e.title.toList ++ '-' :: intToChars e.start

/-- One step of the per-event loop: skip the event if its key was seen,
otherwise record the key and append the event.  (The JS `Set` membership
test is equality of keys, modelled with list membership.) -/
def dedupStep (st : List (List Char) × List FeishuEvent) (e : FeishuEvent) :
    List (List Char) × List FeishuEvent :=
  if eventKey e ∈ st.1 then st
  else (st.1 ++ [eventKey e], st.2 ++ [e])

/-- `FeishuApi.getEvents`' merged output: for each calendar in order, for
each of its events in order, keep the event unless its `(title, start)` key
has already been seen. -/
def getEventsMerged (cals : List (List FeishuEvent)) : List FeishuEvent :=
  (cals.foldl (fun st evs => evs.foldl dedupStep st) ([], [])).2

/-- Reference form of the dedup: keep an event iff its key is neither in
`seen` nor on an earlier kept event. -/
def keepFirstByKey (seen : List (List Char)) : List FeishuEvent → List FeishuEvent
  | [] => []
  | e :: es =>
    if eventKey e ∈ seen then keepFirstByKey seen es
    else e :: keepFirstByKey (seen ++ [eventKey e]) es

theorem foldl_dedupStep (es : List FeishuEvent) :
    ∀ (seen : List (List Char)) (acc : List FeishuEvent),
      (es.foldl dedupStep (seen, acc)).2 = acc ++ keepFirstByKey seen es := by
  induction es with
  | nil => intro seen acc; simp [keepFirstByKey]
  | cons e es ih =>
    intro seen acc
    by_cases h : eventKey e ∈ seen
    · simp only [List.foldl_cons, keepFirstByKey, h, if_true]
      rw [show dedupStep (seen, acc) e = (seen, acc) by simp [dedupStep, h]]
      exact ih seen acc
    · simp only [List.foldl_cons, keepFirstByKey, h, if_false]
      rw [show dedupStep (seen, acc) e = (seen ++ [eventKey e], acc ++ [e]) by
        simp [dedupStep, h]]
      rw [ih (seen ++ [eventKey e]) (acc ++ [e])]
      simp

theorem getEventsMerged_eq_keepFirst (cals : List (List FeishuEvent)) :
    getEventsMerged cals = keepFirstByKey [] cals.flatten := by
  have hfold : ∀ (st : List (List Char) × List FeishuEvent),
      cals.foldl (fun st evs => evs.foldl dedupStep st) st =
        cals.flatten.foldl dedupStep st := by
    induction cals with
    | nil => intro st; simp
    | cons c cs ih =>
      intro st
      simp only [List.foldl_cons, List.flatten_cons, List.foldl_append]
      exact ih _
  unfold getEventsMerged
  rw [hfold ([], [])]
  simpa using foldl_dedupStep cals.flatten [] []

theorem keepFirstByKey_not_seen (es : List FeishuEvent) :
    ∀ seen, ∀ f ∈ keepFirstByKey seen es, eventKey f ∉ seen := by
  induction es with
  | nil => intro seen f hf; simp [keepFirstByKey] at hf
  | cons e es ih =>
    intro seen f hf
    simp only [keepFirstByKey] at hf
    split at hf
    · exact ih seen f hf
    · rcases List.mem_cons.mp hf with rfl | hf
      · next h => exact h
      · intro hmem
        exact ih (seen ++ [eventKey e]) f hf (by simp [hmem])

theorem keepFirstByKey_pairwise (es : List FeishuEvent) :
    ∀ seen, (keepFirstByKey seen es).Pairwise (fun a b => eventKey a ≠ eventKey b) := by
  induction es with
  | nil => intro seen; simp [keepFirstByKey]
  | cons e es ih =>
    intro seen
    simp only [keepFirstByKey]
    split
    · exact ih seen
    · refine List.Pairwise.cons ?_ (ih (seen ++ [eventKey e]))
      intro f hf heq
      exact keepFirstByKey_not_seen es (seen ++ [eventKey e]) f hf (by simp [heq])

theorem keepFirstByKey_sublist (es : List FeishuEvent) :
    ∀ seen, (keepFirstByKey seen es).Sublist es := by
  induction es with
  | nil => intro seen; simp [keepFirstByKey]
  | cons e es ih =>
    intro seen
    simp only [keepFirstByKey]
    split
    · exact (ih seen).cons e
    · exact (ih (seen ++ [eventKey e])).cons₂ e

theorem keepFirstByKey_covers (es : List FeishuEvent) :
    ∀ seen, ∀ e ∈ es, eventKey e ∈ seen ∨
      ∃ f ∈ keepFirstByKey seen es, eventKey f = eventKey e := by
  induction es with
  | nil => intro seen e he; simp at he
  | cons e' es ih =>
    intro seen e he
    simp only [keepFirstByKey]
    rcases List.mem_cons.mp he with rfl | he
    · by_cases h : eventKey e ∈ seen
      · exact Or.inl h
      · right
        refine ⟨e, ?_, rfl⟩
        simp [h]
    · by_cases h : eventKey e' ∈ seen
      · rcases ih seen e he with hmem | ⟨f, hf, hkey⟩
        · exact Or.inl hmem
        · exact Or.inr ⟨f, by simp [h, hf], hkey⟩
      · rcases ih (seen ++ [eventKey e']) e he with hmem | ⟨f, hf, hkey⟩
        · rcases List.mem_append.mp hmem with hmem | hmem
          · exact Or.inl hmem
          · right
            refine ⟨e', by simp [h], ?_⟩
            exact (List.mem_singleton.mp hmem).symm
        · exact Or.inr ⟨f, by simp [h, hf], hkey⟩

theorem keepFirstByKey_first (es : List FeishuEvent) :
    ∀ seen, ∀ f ∈ keepFirstByKey seen es,
      es.find? (fun x => eventKey x == eventKey f) = some f := by
  induction es with
  | nil => intro seen f hf; simp [keepFirstByKey] at hf
  | cons e es ih =>
    intro seen f hf
    simp only [keepFirstByKey] at hf
    split at hf
    · next h =>
      have hne : eventKey e ≠ eventKey f := by
        intro heq
        exact keepFirstByKey_not_seen es seen f hf (heq ▸ h)
      rw [List.find?_cons_of_neg _ (by simpa using hne)]
      exact ih seen f hf
    · next h =>
      rcases List.mem_cons.mp hf with rfl | hf
      · exact List.find?_cons_of_pos _ (by simp)
      · have hne : eventKey e ≠ eventKey f := by
          intro heq
          exact keepFirstByKey_not_seen es (seen ++ [eventKey e]) f hf (by simp [heq])
        rw [List.find?_cons_of_neg _ (by simpa using hne)]
        exact ih (seen ++ [eventKey e]) f hf

/-- C7: in the REST client's `getEvents`, the merged output keeps at most
one event for each `(title, start)` pair — the first seen, in
calendar-then-item order — and is a subsequence of the concatenated
per-calendar event lists in which every incoming `(title, start)` key is
still represented. -/
theorem getEvents_dedup_spec (cals : List (List FeishuEvent)) :
    (getEventsMerged cals).Pairwise
      (fun a b => ¬(a.title = b.title ∧ a.start = b.start)) ∧
    (getEventsMerged cals).Sublist cals.flatten ∧
    (∀ e ∈ cals.flatten, ∃ f ∈ getEventsMerged cals, eventKey f = eventKey e) ∧
    (∀ f ∈ getEventsMerged cals,
      cals.flatten.find? (fun x => eventKey x == eventKey f) = some f) := by
  rw [getEventsMerged_eq_keepFirst]
  refine ⟨?_, keepFirstByKey_sublist cals.flatten [],
    ?_, keepFirstByKey_first cals.flatten []⟩
  · refine (keepFirstByKey_pairwise cals.flatten []).imp ?_
    intro a b hk hab
    exact hk (by unfold eventKey; rw [hab.1, hab.2])
  · intro e he
    rcases keepFirstByKey_covers cals.flatten [] e he with hmem | hf
    · simp at hmem
    · exact hf

/-! ## Structured-note merge engine (`DailyNoteParser.updateDayPlannerSection`) -/

/-- The fields of a `CalendarEvent` the merge consumes.  `endT` is the
source's `end` (reserved in Lean); the source's id/source/pomodoro fields do
not enter the rewrite. -/
structure MergeEvent where
  title : List Char
  start : Int
  endT : Int
  category : EventCategory
  taskSourcePath : Option (List Char)
  taskLineNumber : Option Int
deriving DecidableEq, Repr

/-- `byCategory[c]`, built by pushing the incoming events in order. -/
def eventsForCategory (events : List MergeEvent) (c : EventCategory) : List MergeEvent :=
  events.filter (fun e => e.category == c)

/-- Stable ascending insertion by start time, modelling
`byCategory[category].sort((a, b) => a.start.getTime() - b.start.getTime())`. -/
def insertByStart (e : MergeEvent) : List MergeEvent → List MergeEvent
  | [] => [e]
  | x :: xs => if e.start < x.start then e :: x :: xs else x :: insertByStart e xs

def sortByStart (events : List MergeEvent) : List MergeEvent :=
  events.foldl (fun acc e => insertByStart e acc) []

/-- The optional `[taskPath:: …] [taskLine:: …]` tail, appended when both
fields are truthy (present, nonempty / nonzero). -/
def taskLinkSuffix (e : MergeEvent) : List Char :=
  match e.taskSourcePath with
  | none => []
  | some p =>
    match e.taskLineNumber with
    | none => []
    | some n =>
      if p ≠ [] ∧ n ≠ 0 then
        " [taskPath:: ".toList ++ p ++ "] [taskLine:: ".toList ++ intToChars n ++ "]".toList
      else []

/-- `- <title> [startTime:: HH:MM] [endTime:: HH:MM]` plus the optional
back-link fields. -/
def renderEventLine (e : MergeEvent) : List Char :=
  "- ".toList ++ e.title ++ " [startTime:: ".toList ++ formatTime e.start ++
    "] [endTime:: ".toList ++ formatTime e.endT ++ "]".toList ++ taskLinkSuffix e

/-- The freshly rendered lines for one category's group. -/
def renderedForCategory (events : List MergeEvent) (c : EventCategory) : List (List Char) :=
  (sortByStart (eventsForCategory events c)).map renderEventLine

/-- `sectionHeadings`: the fixed heading for each category. -/
def sectionHeadings : EventCategory → List Char
  | EventCategory.focus => "### 🎯 专注时间".toList
  | EventCategory.meeting => "### 📅 会议".toList
  | EventCategory.personal => "### 🏠 家庭/个人".toList
  | EventCategory.rest => "### 😴 休息".toList
  | EventCategory.admin => "### 📝 事务".toList

/-- The `headingToCategory` reverse lookup, tried in `Object.entries`
insertion order; `trimmedLine === heading` is subsumed by `startsWith`. -/
def headingCategory (l : List Char) : Option EventCategory :=
  [EventCategory.focus, EventCategory.meeting, EventCategory.personal, EventCategory.rest,
    EventCategory.admin].find? (fun c => isPre (sectionHeadings c) (trimChars l))

/-- Any other `### `/`## ` heading ends the current replacing section. -/
def isOtherHeadingLine (l : List Char) : Bool :=
  isPre "### ".toList (trimChars l) || isPre "## ".toList (trimChars l)

/-- An old event line: starts with the list dash after trimming and carries a
startTime field. -/
def isEventPatternLine (l : List Char) : Bool :=
  isPre "-".toList (trimChars l) && containsSeq "[startTime::".toList l

/-- The line loop of `updateDayPlannerSection`; the `Option EventCategory`
state is `currentSyncCategory`. -/
def updateDayPlannerLines (events : List MergeEvent) :
    Option EventCategory → List (List Char) → List (List Char)
  | _, [] => []
  | s, l :: rest =>
    match headingCategory l with
    | some c =>
      if eventsForCategory events c ≠ [] then
        l :: (renderedForCategory events c ++ updateDayPlannerLines events (some c) rest)
      else
        l :: updateDayPlannerLines events none rest
    | none =>
      if isOtherHeadingLine l then l :: updateDayPlannerLines events none rest
      else if s.isSome && isEventPatternLine l then updateDayPlannerLines events s rest
      else l :: updateDayPlannerLines events s rest

/-- `DailyNoteParser.updateDayPlannerSection`. -/
def updateDayPlannerSection (content : String) (events : List MergeEvent) : String :=
  String.mk (joinNl (updateDayPlannerLines events none (splitNl content.toList)))

/-- Events whose rendering occupies a single line: no newline in the title
or the task path.  (Every event the plugin constructs satisfies this: titles
and paths are extracted from single lines of text or of wire data.) -/
def lineSafeEvent (e : MergeEvent) : Prop :=
  '\n' ∉ e.title ∧ '\n' ∉ e.taskSourcePath.getD []

instance (e : MergeEvent) : Decidable (lineSafeEvent e) := by
  unfold lineSafeEvent; infer_instance

/-! ### Facts about rendered event lines -/

theorem isPre_false_of_head {pat : List Char} {a b : Char} {bs : List Char}
    (hp : pat.head? = some a) (hab : a ≠ b) : isPre pat (b :: bs) = false := by
  cases pat with
  | nil => simp at hp
  | cons p ps =>
    simp only [List.head?_cons, Option.some.injEq] at hp
    subst hp
    simp [isPre, hab]

theorem headingCategory_eq_none_of_trim_head {l t : List Char} {b : Char}
    (ht : trimChars l = b :: t) (hb : b ≠ '#') : headingCategory l = none := by
  unfold headingCategory
  rw [List.find?_eq_none]
  intro c _
  have hh : (sectionHeadings c).head? = some '#' := by cases c <;> decide
  rw [ht]
  simp [isPre_false_of_head hh (Ne.symm hb)]

theorem isOtherHeadingLine_false_of_trim_head {l t : List Char} {b : Char}
    (ht : trimChars l = b :: t) (hb : b ≠ '#') : isOtherHeadingLine l = false := by
  unfold isOtherHeadingLine
  rw [ht]
  rw [isPre_false_of_head (show ("### ".toList).head? = some '#' by decide) (Ne.symm hb),
    isPre_false_of_head (show ("## ".toList).head? = some '#' by decide) (Ne.symm hb)]
  rfl

theorem renderEventLine_head (e : MergeEvent) :
    ∃ m, renderEventLine e = '-' :: ' ' :: m :=
  ⟨_, rfl⟩

theorem trim_renderEventLine (e : MergeEvent) :
    ∃ y, trimChars (renderEventLine e) = '-' :: y := by
  obtain ⟨m, hm⟩ := renderEventLine_head e
  rw [hm, trimChars_cons_of_not_ws (by decide)]
  exact ⟨_, rfl⟩

theorem renderEventLine_has_startTime (e : MergeEvent) :
    containsSeq "[startTime::".toList (renderEventLine e) = true := by
  refine (containsSeq_iff _ _).2
    ⟨"- ".toList ++ e.title ++ [' '],
      [' '] ++ formatTime e.start ++ "] [endTime:: ".toList ++ formatTime e.endT ++
        "]".toList ++ taskLinkSuffix e, ?_⟩
  unfold renderEventLine
  rw [show " [startTime:: ".toList = [' '] ++ "[startTime::".toList ++ [' '] from by decide]
  simp [List.append_assoc]

theorem renderEventLine_props (e : MergeEvent) :
    headingCategory (renderEventLine e) = none ∧
    isOtherHeadingLine (renderEventLine e) = false ∧
    isEventPatternLine (renderEventLine e) = true := by
  obtain ⟨y, hy⟩ := trim_renderEventLine e
  refine ⟨headingCategory_eq_none_of_trim_head hy (by decide),
    isOtherHeadingLine_false_of_trim_head hy (by decide), ?_⟩
  unfold isEventPatternLine
  rw [hy, renderEventLine_has_startTime e]
  rw [show "-".toList = ['-'] from by decide]
  simp [isPre]

theorem mem_insertByStart {x e : MergeEvent} {l : List MergeEvent} :
    x ∈ insertByStart e l → x = e ∨ x ∈ l := by
  induction l with
  | nil => intro h; simpa [insertByStart] using h
  | cons a as ih =>
    intro h
    simp only [insertByStart] at h
    split at h
    · rcases List.mem_cons.mp h with rfl | h
      · exact Or.inl rfl
      · exact Or.inr h
    · rcases List.mem_cons.mp h with rfl | h
      · exact Or.inr (by simp)
      · rcases ih h with rfl | h
        · exact Or.inl rfl
        · exact Or.inr (by simp [h])

theorem mem_sortByStart {x : MergeEvent} {l : List MergeEvent} :
    x ∈ sortByStart l → x ∈ l := by
  have haux : ∀ (l : List MergeEvent) (acc : List MergeEvent),
      x ∈ l.foldl (fun acc e => insertByStart e acc) acc → x ∈ acc ∨ x ∈ l := by
    intro l
    induction l with
    | nil => intro acc h; exact Or.inl h
    | cons e es ih =>
      intro acc h
      rcases ih (insertByStart e acc) h with h' | h'
      · rcases mem_insertByStart h' with rfl | h''
        · exact Or.inr (by simp)
        · exact Or.inl h''
      · exact Or.inr (by simp [h'])
  intro h
  rcases haux l [] h with h' | h'
  · simp at h'
  · exact h'

theorem taskLinkSuffix_none {e : MergeEvent} (h : e.taskSourcePath = none) :
    taskLinkSuffix e = [] := by
  unfold taskLinkSuffix; rw [h]

theorem taskLinkSuffix_some_none {e : MergeEvent} {p : List Char}
    (h1 : e.taskSourcePath = some p) (h2 : e.taskLineNumber = none) :
    taskLinkSuffix e = [] := by
  unfold taskLinkSuffix; rw [h1, h2]

theorem taskLinkSuffix_some_some {e : MergeEvent} {p : List Char} {n : Int}
    (h1 : e.taskSourcePath = some p) (h2 : e.taskLineNumber = some n) :
    taskLinkSuffix e =
      if p ≠ [] ∧ n ≠ 0 then
        " [taskPath:: ".toList ++ p ++ "] [taskLine:: ".toList ++ intToChars n ++ "]".toList
      else [] := by
  unfold taskLinkSuffix; rw [h1, h2]

theorem newline_not_mem_taskLinkSuffix {e : MergeEvent} (he : lineSafeEvent e) :
    '\n' ∉ taskLinkSuffix e := by
  rcases hsp : e.taskSourcePath with _ | p
  · rw [taskLinkSuffix_none hsp]; simp
  · rcases hln : e.taskLineNumber with _ | n
    · rw [taskLinkSuffix_some_none hsp hln]; simp
    · rw [taskLinkSuffix_some_some hsp hln]
      split
      · intro h
        simp only [List.mem_append, or_assoc] at h
        rcases h with h | h | h | h | h
        · revert h; decide
        · have h2 := he.2
          rw [hsp] at h2
          exact h2 h
        · revert h; decide
        · exact newline_not_mem_intToChars _ h
        · revert h; decide
      · simp

theorem newline_not_mem_renderEventLine {e : MergeEvent} (he : lineSafeEvent e) :
    '\n' ∉ renderEventLine e := by
  intro h
  unfold renderEventLine at h
  simp only [List.mem_append, or_assoc] at h
  rcases h with h | h | h | h | h | h | h | h
  · revert h; decide
  · exact he.1 h
  · revert h; decide
  · exact newline_not_mem_formatTime _ h
  · revert h; decide
  · exact newline_not_mem_formatTime _ h
  · revert h; decide
  · exact newline_not_mem_taskLinkSuffix he h

/-! ### Step equations for the merge loop -/

theorem udpl_nil (events : List MergeEvent) (s : Option EventCategory) :
    updateDayPlannerLines events s [] = [] := rfl

theorem udpl_heading_with_events {events : List MergeEvent} {l : List Char}
    {c : EventCategory} (s : Option EventCategory) (rest : List (List Char))
    (hc : headingCategory l = some c) (hev : eventsForCategory events c ≠ []) :
    updateDayPlannerLines events s (l :: rest) =
      l :: (renderedForCategory events c ++ updateDayPlannerLines events (some c) rest) := by
  simp only [updateDayPlannerLines, hc]
  rw [if_pos hev]

theorem udpl_heading_no_events {events : List MergeEvent} {l : List Char}
    {c : EventCategory} (s : Option EventCategory) (rest : List (List Char))
    (hc : headingCategory l = some c) (hev : eventsForCategory events c = []) :
    updateDayPlannerLines events s (l :: rest) =
      l :: updateDayPlannerLines events none rest := by
  simp only [updateDayPlannerLines, hc]
  rw [if_neg (by simp [hev])]

theorem udpl_other_heading {events : List MergeEvent} {l : List Char}
    (s : Option EventCategory) (rest : List (List Char))
    (hc : headingCategory l = none) (hoh : isOtherHeadingLine l = true) :
    updateDayPlannerLines events s (l :: rest) =
      l :: updateDayPlannerLines events none rest := by
  simp only [updateDayPlannerLines, hc, hoh, if_true]

theorem udpl_skip {events : List MergeEvent} {l : List Char}
    {s : Option EventCategory} (rest : List (List Char))
    (hc : headingCategory l = none) (hoh : isOtherHeadingLine l = false)
    (hs : s.isSome = true) (hep : isEventPatternLine l = true) :
    updateDayPlannerLines events s (l :: rest) = updateDayPlannerLines events s rest := by
  simp only [updateDayPlannerLines, hc, hoh, hs, hep]
  simp

theorem udpl_plain {events : List MergeEvent} {l : List Char}
    {s : Option EventCategory} (rest : List (List Char))
    (hc : headingCategory l = none) (hoh : isOtherHeadingLine l = false)
    (hsk : ¬(s.isSome = true ∧ isEventPatternLine l = true)) :
    updateDayPlannerLines events s (l :: rest) =
      l :: updateDayPlannerLines events s rest := by
  simp only [updateDayPlannerLines, hc, hoh]
  rw [if_neg (by simp), if_neg (by simpa [Bool.and_eq_true] using hsk)]

/-- A run of freshly rendered event lines is skipped entirely while the
state is inside a replacing section. -/
theorem udpl_skip_run (events : List MergeEvent) {s : Option EventCategory}
    (hs : s.isSome = true) (rs rest : List (List Char))
    (hrs : ∀ l ∈ rs, headingCategory l = none ∧ isOtherHeadingLine l = false ∧
      isEventPatternLine l = true) :
    updateDayPlannerLines events s (rs ++ rest) = updateDayPlannerLines events s rest := by
  induction rs with
  | nil => rfl
  | cons r rs ih =>
    obtain ⟨h1, h2, h3⟩ := hrs r (by simp)
    rw [List.cons_append, udpl_skip _ h1 h2 hs h3]
    exact ih (fun l hl => hrs l (by simp [hl]))

theorem rendered_line_props (events : List MergeEvent) (c : EventCategory) :
    ∀ l ∈ renderedForCategory events c, headingCategory l = none ∧
      isOtherHeadingLine l = false ∧ isEventPatternLine l = true := by
  intro l hl
  unfold renderedForCategory at hl
  obtain ⟨e, _, rfl⟩ := List.mem_map.mp hl
  obtain ⟨hA, hB, hC⟩ := renderEventLine_props e
  exact ⟨hA, hB, hC⟩

/-- Line-level idempotence of the merge. -/
theorem updateDayPlannerLines_idem (events : List MergeEvent) :
    ∀ (ls : List (List Char)) (s : Option EventCategory),
      updateDayPlannerLines events s (updateDayPlannerLines events s ls) =
        updateDayPlannerLines events s ls := by
  intro ls
  induction ls with
  | nil => intro s; rfl
  | cons l rest ih =>
    intro s
    rcases hhc : headingCategory l with _ | c
    · by_cases hoh : isOtherHeadingLine l = true
      · rw [udpl_other_heading s rest hhc hoh,
          udpl_other_heading s _ hhc hoh, ih none]
      · have hoh' : isOtherHeadingLine l = false := by
          simpa using hoh
        by_cases hsk : s.isSome = true ∧ isEventPatternLine l = true
        · rw [udpl_skip rest hhc hoh' hsk.1 hsk.2, ih s]
        · rw [udpl_plain rest hhc hoh' hsk, udpl_plain _ hhc hoh' hsk, ih s]
    · by_cases hev : eventsForCategory events c = []
      · rw [udpl_heading_no_events s rest hhc hev,
          udpl_heading_no_events s _ hhc hev, ih none]
      · rw [udpl_heading_with_events s rest hhc hev,
          udpl_heading_with_events s _ hhc hev]
        rw [udpl_skip_run events (by rfl) (renderedForCategory events c) _
          (rendered_line_props events c)]
        rw [ih (some c)]

/-- Output lines of the merge keep the no-newline property. -/
theorem udpl_no_newline (events : List MergeEvent)
    (hev : ∀ e ∈ events, lineSafeEvent e) :
    ∀ (ls : List (List Char)) (s : Option EventCategory),
      (∀ l ∈ ls, '\n' ∉ l) →
      ∀ l ∈ updateDayPlannerLines events s ls, '\n' ∉ l := by
  intro ls
  induction ls with
  | nil => intro s _ l hl; simp [udpl_nil] at hl
  | cons x rest ih =>
    intro s hls l hl
    have hx : '\n' ∉ x := hls x (by simp)
    have hrest : ∀ l ∈ rest, '\n' ∉ l := fun l h => hls l (by simp [h])
    rcases hhc : headingCategory x with _ | c
    · by_cases hoh : isOtherHeadingLine x = true
      · rw [udpl_other_heading s rest hhc hoh] at hl
        rcases List.mem_cons.mp hl with rfl | hl
        · exact hx
        · exact ih none hrest l hl
      · have hoh' : isOtherHeadingLine x = false := by simpa using hoh
        by_cases hsk : s.isSome = true ∧ isEventPatternLine x = true
        · rw [udpl_skip rest hhc hoh' hsk.1 hsk.2] at hl
          exact ih s hrest l hl
        · rw [udpl_plain rest hhc hoh' hsk] at hl
          rcases List.mem_cons.mp hl with rfl | hl
          · exact hx
          · exact ih s hrest l hl
    · by_cases hevc : eventsForCategory events c = []
      · rw [udpl_heading_no_events s rest hhc hevc] at hl
        rcases List.mem_cons.mp hl with rfl | hl
        · exact hx
        · exact ih none hrest l hl
      · rw [udpl_heading_with_events s rest hhc hevc] at hl
        rcases List.mem_cons.mp hl with rfl | hl
        · exact hx
        · rcases List.mem_append.mp hl with hl | hl
          · unfold renderedForCategory at hl
            obtain ⟨e, he, rfl⟩ := List.mem_map.mp hl
            have hmem : e ∈ events := by
              have := mem_sortByStart he
              exact List.mem_of_mem_filter this
            exact newline_not_mem_renderEventLine (hev e hmem)
          · exact ih (some c) hrest l hl

/-- C1: for every starting document and incoming event set (whose titles and
task paths are single-line, as every event the plugin constructs is),
applying `updateDayPlannerSection` twice with the same events gives the same
document as applying it once, byte for byte. -/
theorem updateDayPlannerSection_idempotent (content : String) (events : List MergeEvent)
    (h : ∀ e ∈ events, lineSafeEvent e) :
    updateDayPlannerSection (updateDayPlannerSection content events) events =
      updateDayPlannerSection content events := by
  unfold updateDayPlannerSection
  set out := updateDayPlannerLines events none (splitNl content.toList) with hout
  rw [show (String.mk (joinNl out)).toList = joinNl out from rfl]
  congr 1
  by_cases hnil : out = []
  · rw [hnil]
    rw [show splitNl (joinNl ([] : List (List Char))) = [[]] from rfl]
    rw [udpl_plain ([] : List (List Char)) (by decide) (by decide) (by simp)]
    rw [udpl_nil]
    rfl
  · have hnlout : ∀ l ∈ out, '\n' ∉ l := by
      rw [hout]
      exact udpl_no_newline events h (splitNl content.toList) none
        (splitNl_no_newline content.toList)
    rw [splitNl_joinNl out hnil hnlout, hout]
    exact congrArg joinNl (updateDayPlannerLines_idem events (splitNl content.toList) none)

theorem updateDayPlannerSection_idempotent_witness :
    updateDayPlannerSection
      (updateDayPlannerSection "### 📅 会议\n- Old [startTime:: 09:00] [endTime:: 10:00]\nnote"
        [⟨"Team sync".toList, 50400000, 54000000, EventCategory.meeting, none, none⟩])
      [⟨"Team sync".toList, 50400000, 54000000, EventCategory.meeting, none, none⟩] =
    updateDayPlannerSection "### 📅 会议\n- Old [startTime:: 09:00] [endTime:: 10:00]\nnote"
      [⟨"Team sync".toList, 50400000, 54000000, EventCategory.meeting, none, none⟩] :=
  updateDayPlannerSection_idempotent _ _ (by decide)

/-! ### The frame behaviour of the merge (C2) -/

theorem udpl_run_none (events : List MergeEvent) (seg rest : List (List Char))
    (hseg : ∀ l ∈ seg, headingCategory l = none ∧ isOtherHeadingLine l = false) :
    updateDayPlannerLines events none (seg ++ rest) =
      seg ++ updateDayPlannerLines events none rest := by
  induction seg with
  | nil => rfl
  | cons l seg ih =>
    obtain ⟨h1, h2⟩ := hseg l (by simp)
    rw [List.cons_append, udpl_plain _ h1 h2 (by simp), ih (fun x hx => hseg x (by simp [hx]))]
    rfl

theorem udpl_run_some (events : List MergeEvent) (c : EventCategory)
    (seg rest : List (List Char))
    (hseg : ∀ l ∈ seg, headingCategory l = none ∧ isOtherHeadingLine l = false) :
    updateDayPlannerLines events (some c) (seg ++ rest) =
      (seg.filter fun l => !isEventPatternLine l) ++
        updateDayPlannerLines events (some c) rest := by
  induction seg with
  | nil => rfl
  | cons l seg ih =>
    obtain ⟨h1, h2⟩ := hseg l (by simp)
    have ih' := ih (fun x hx => hseg x (by simp [hx]))
    by_cases hep : isEventPatternLine l = true
    · rw [List.cons_append, udpl_skip _ h1 h2 (by rfl) hep, ih']
      simp [hep]
    · have hep' : isEventPatternLine l = false := by simpa using hep
      rw [List.cons_append, udpl_plain _ h1 h2 (by simp [hep']), ih']
      simp [hep']

/-- C2: the merge's frame behaviour, section by section.  Lines that are
neither a category heading nor any `### `/`## ` heading pass through
verbatim outside a replacing section (1); inside a replacing section exactly
the lines matching the event-line pattern are dropped and every other line
passes through verbatim (2); a recognized heading with no incoming events
leaves the state non-replacing, so its whole section is untouched (3); a
recognized heading with incoming events emits the heading, then the freshly
rendered group (4); any other heading ends the replacing section (5). -/
theorem updateDayPlannerSection_frame (events : List MergeEvent) :
    (∀ seg rest, (∀ l ∈ seg, headingCategory l = none ∧ isOtherHeadingLine l = false) →
      updateDayPlannerLines events none (seg ++ rest) =
        seg ++ updateDayPlannerLines events none rest) ∧
    (∀ c seg rest, (∀ l ∈ seg, headingCategory l = none ∧ isOtherHeadingLine l = false) →
      updateDayPlannerLines events (some c) (seg ++ rest) =
        (seg.filter fun l => !isEventPatternLine l) ++
          updateDayPlannerLines events (some c) rest) ∧
    (∀ s l rest c, headingCategory l = some c → eventsForCategory events c = [] →
      updateDayPlannerLines events s (l :: rest) =
        l :: updateDayPlannerLines events none rest) ∧
    (∀ s l rest c, headingCategory l = some c → eventsForCategory events c ≠ [] →
      updateDayPlannerLines events s (l :: rest) =
        l :: (renderedForCategory events c ++ updateDayPlannerLines events (some c) rest)) ∧
    (∀ s l rest, headingCategory l = none → isOtherHeadingLine l = true →
      updateDayPlannerLines events s (l :: rest) =
        l :: updateDayPlannerLines events none rest) := by
  refine ⟨udpl_run_none events, fun c => udpl_run_some events c, ?_, ?_, ?_⟩
  · intro s l rest c hc hev
    exact udpl_heading_no_events s rest hc hev
  · intro s l rest c hc hev
    exact udpl_heading_with_events s rest hc hev
  · intro s l rest hc hoh
    exact udpl_other_heading s rest hc hoh

theorem updateDayPlannerSection_frame_witness :
    (updateDayPlannerLines [] none (["free text".toList] ++ []) =
      ["free text".toList] ++ updateDayPlannerLines [] none []) ∧
    (updateDayPlannerLines [] none ("### 😴 休息".toList :: []) =
      "### 😴 休息".toList :: updateDayPlannerLines [] none []) :=
  ⟨(updateDayPlannerSection_frame []).1 ["free text".toList] [] (by decide),
    (updateDayPlannerSection_frame []).2.2.1 none "### 😴 休息".toList [] EventCategory.rest
      (by decide) (by decide)⟩

/-! ### Events of a category whose heading is absent (C9) -/

theorem eventsForCategory_filter_ne (events : List MergeEvent) (c c' : EventCategory)
    (h : c' ≠ c) :
    eventsForCategory (events.filter fun e => e.category != c) c' =
      eventsForCategory events c' := by
  unfold eventsForCategory
  induction events with
  | nil => rfl
  | cons e es ih =>
    by_cases he : e.category = c'
    · rw [List.filter_cons, List.filter_cons]
      have h1 : (e.category != c) = true := by simp [he, h]
      have h2 : (e.category == c') = true := by simp [he]
      rw [h1, if_pos rfl]
      rw [List.filter_cons]
      simp only [h2, if_pos rfl]
      rw [ih]
    · have h2 : (e.category == c') = false := by simp [he]
      rw [List.filter_cons]
      by_cases hc : (e.category != c) = true
      · rw [hc, if_pos rfl, List.filter_cons, List.filter_cons]
        simp only [h2]
        rw [ih]
      · have hc' : (e.category != c) = false := by simpa using hc
        rw [hc']
        simp only [Bool.false_eq_true, if_false]
        rw [List.filter_cons]
        simp only [h2, Bool.false_eq_true, if_false]
        exact ih

theorem updateDayPlannerLines_drop_unknown (events : List MergeEvent) (c : EventCategory) :
    ∀ (ls : List (List Char)) (s : Option EventCategory),
      (∀ l ∈ ls, headingCategory l ≠ some c) →
      updateDayPlannerLines events s ls =
        updateDayPlannerLines (events.filter fun e => e.category != c) s ls := by
  intro ls
  induction ls with
  | nil => intro s _; rfl
  | cons l rest ih =>
    intro s hls
    have hrest : ∀ x ∈ rest, headingCategory x ≠ some c := fun x hx => hls x (by simp [hx])
    rcases hhc : headingCategory l with _ | c'
    · by_cases hoh : isOtherHeadingLine l = true
      · rw [udpl_other_heading s rest hhc hoh, udpl_other_heading s rest hhc hoh, ih none hrest]
      · have hoh' : isOtherHeadingLine l = false := by simpa using hoh
        by_cases hsk : s.isSome = true ∧ isEventPatternLine l = true
        · rw [udpl_skip rest hhc hoh' hsk.1 hsk.2, udpl_skip rest hhc hoh' hsk.1 hsk.2,
            ih s hrest]
        · rw [udpl_plain rest hhc hoh' hsk, udpl_plain rest hhc hoh' hsk, ih s hrest]
    · have hcc : c' ≠ c := by
        intro he
        exact hls l (by simp) (by rw [hhc, he])
      have hfe := eventsForCategory_filter_ne events c c' hcc
      by_cases hev : eventsForCategory events c' = []
      · rw [udpl_heading_no_events s rest hhc hev,
          udpl_heading_no_events s rest hhc (by rw [hfe]; exact hev), ih none hrest]
      · rw [udpl_heading_with_events s rest hhc hev,
          udpl_heading_with_events s rest hhc (by rw [hfe]; exact hev)]
        unfold renderedForCategory
        rw [hfe, ih (some c') hrest]

/-- C9: when no line of the document carries the section heading of category
`c`, merging any event set writes none of the `c`-events — the result is
byte-identical to merging with those events removed — and no error arises
(the merge is a total function). -/
theorem updateDayPlannerSection_unknown_category (content : String)
    (events : List MergeEvent) (c : EventCategory)
    (h : ∀ l ∈ splitNl content.toList, headingCategory l ≠ some c) :
    updateDayPlannerSection content events =
      updateDayPlannerSection content (events.filter fun e => e.category != c) :=
  congrArg (fun x => String.mk (joinNl x))
    (updateDayPlannerLines_drop_unknown events c (splitNl content.toList) none h)

/-- The fixed daily-note template built by `getDailyNoteTemplate` (the
`dateStr` it computes is unused, so the template is one constant string). -/
def dailyNoteTemplate : String :=
  "\n# **今日主题：** `待填写`\n\n# 今日TODO\n%%Your Record%%\n\n```tasks\n((folder includes 1. Projects) OR (folder includes 2. Areas) OR (folder includes 3. Resources) OR (filename includes Inbox)) AND ((due on today) OR (status.type is IN_PROGRESS) OR (due before today))\nnot done\nsort by due\n```\n\n# Day planner\n### 今天从哪开始？\n\n待填写\n\n### 🎯 专注时间\n\n### 📅 会议\n\n### 🏠 家庭/个人\n\n### 😴 休息\n\n## 💭 每日反思\n\n\n---\n\n## Completed today\n%%List of tasks completed today, extracted from all notes%%\n```PeriodicPARA\nTaskDoneListByTime\n```\n"

theorem updateDayPlannerSection_unknown_category_witness :
    updateDayPlannerSection dailyNoteTemplate
      [⟨"报销差旅".toList, 36000000, 39600000, EventCategory.admin, none, none⟩] =
    updateDayPlannerSection dailyNoteTemplate
      ([⟨"报销差旅".toList, 36000000, 39600000, EventCategory.admin, none, none⟩].filter
        fun e => e.category != EventCategory.admin) :=
  updateDayPlannerSection_unknown_category _ _ EventCategory.admin (by decide)

/-! ## Note creation from the template (C4) -/

/-- `writeEventsToDailyNote`, at the document level: the note's current
text, or — when the note does not yet exist — the fixed template, merged
with the incoming events.  (Vault I/O — path computation, folder creation,
the write itself — is outside the text model.) -/
def writeEventsToDailyNote (existing : Option String) (events : List MergeEvent) : String :=
  match existing with
  | some content => updateDayPlannerSection content events
  | none => updateDayPlannerSection dailyNoteTemplate events

/-- C4 counterexample: the fixed template contains no Admin section heading
(`### 📝 事务`), so it does not contain a heading for every category of
the enumeration. -/
theorem dailyNoteTemplate_lacks_admin_heading :
    containsSeq (sectionHeadings EventCategory.admin) dailyNoteTemplate.toList = false := by
  decide

/-- C4 as amended: when the target note does not exist,
`writeEventsToDailyNote` merges into the fixed template, which contains
(empty) section headings for Focus, Meeting, Personal and Rest — but not for
Admin. -/
theorem writeEventsToDailyNote_template (events : List MergeEvent) :
    writeEventsToDailyNote none events = updateDayPlannerSection dailyNoteTemplate events ∧
    sectionHeadings EventCategory.focus ∈ splitNl dailyNoteTemplate.toList ∧
    sectionHeadings EventCategory.meeting ∈ splitNl dailyNoteTemplate.toList ∧
    sectionHeadings EventCategory.personal ∈ splitNl dailyNoteTemplate.toList ∧
    sectionHeadings EventCategory.rest ∈ splitNl dailyNoteTemplate.toList ∧
    containsSeq (sectionHeadings EventCategory.admin) dailyNoteTemplate.toList = false :=
  ⟨rfl, by decide, by decide, by decide, by decide, by decide⟩

theorem getEvents_dedup_spec_witness :
    ∃ f ∈ getEventsMerged
        [[⟨"cal1-evt", "Standup", 100, EventCategory.meeting⟩],
          [⟨"cal2-evt", "Standup", 100, EventCategory.meeting⟩]],
      eventKey f = eventKey ⟨"cal2-evt", "Standup", 100, EventCategory.meeting⟩ :=
  (getEvents_dedup_spec
    [[⟨"cal1-evt", "Standup", 100, EventCategory.meeting⟩],
      [⟨"cal2-evt", "Standup", 100, EventCategory.meeting⟩]]).2.2.1
    ⟨"cal2-evt", "Standup", 100, EventCategory.meeting⟩ (by decide)

/-! ## Daily-note event parsing (`DailyNoteParser.parseEventsFromContent`) -/

/-- `headingPatterns` of the parser: only four headings — the Admin heading
is absent — in insertion order. -/
def headingPatterns : List (List Char × EventCategory) :=
  [("### 🎯 专注时间".toList, EventCategory.focus),
    ("### 📅 会议".toList, EventCategory.meeting),
    ("### 🏠 家庭/个人".toList, EventCategory.personal),
    ("### 😴 休息".toList, EventCategory.rest)]

/-- The heading scan: first pattern with `line.trim().startsWith(heading)`. -/
def parseHeadingCategory (l : List Char) : Option EventCategory :=
  (headingPatterns.find? fun p => isPre p.1 (trimChars l)).map (·.2)

/-- `\d{1,2}:\d{2}` at a fixed position (greedy, with the only viable
backtrack being two digits versus one). -/
def parseTimeHHMM (cs : List Char) : Option (List Char × List Char) :=
  match cs with
  | a :: ':' :: c :: d :: rest =>
    if a.isDigit && c.isDigit && d.isDigit then some ([a, ':', c, d], rest) else none
  | a :: b :: ':' :: c :: d :: rest =>
    if a.isDigit && b.isDigit && c.isDigit && d.isDigit then
      some ([a, b, ':', c, d], rest)
    else none
  | _ => none

def skipWs (cs : List Char) : List Char := cs.dropWhile Char.isWhitespace

/-- Literal-prefix step of a regex match. -/
def expectPre (pat cs : List Char) : Option (List Char) :=
  if isPre pat cs then some (cs.drop pat.length) else none

/-- The parser's `timePattern`
`\[startTime::\s*(\d{1,2}:\d{2})\s*\]\s*\[endTime::\s*(\d{1,2}:\d{2})\s*\]`
matched at a fixed position; returns the two captured times. -/
def timePatternAt (cs : List Char) : Option (List Char × List Char) :=
  (expectPre "[startTime::".toList cs).bind fun r1 =>
  (parseTimeHHMM (skipWs r1)).bind fun p1 =>
  (expectPre "]".toList (skipWs p1.2)).bind fun r2 =>
  (expectPre "[endTime::".toList (skipWs r2)).bind fun r3 =>
  (parseTimeHHMM (skipWs r3)).bind fun p2 =>
  (expectPre "]".toList (skipWs p2.2)).map fun _ => (p1.1, p2.1)

/-- Leftmost search for `timePattern` (the pattern starts with a literal
bracket, so candidate positions are exactly where `timePatternAt` succeeds). -/
def timePatternSearch : List Char → Option (List Char × List Char)
  | [] => none
  | l@(_ :: rest) =>
    match timePatternAt l with
    | some r => some r
    | none => timePatternSearch rest

/-- The lazy group of `^-\s*(.+?)\s*\[startTime`: the shortest nonempty
prefix after the dash that is followed by `[startTime`; the capture is used
trimmed. -/
def titleScan (acc : List Char) : List Char → Option (List Char)
  | [] => none
  | c :: rest =>
    if isPre "[startTime".toList rest then some (trimChars (acc ++ [c]))
    else titleScan (acc ++ [c]) rest

/-- `line.match(/^-\s*(.+?)\s*\[startTime/)`, defaulting to `Untitled`. -/
def extractTitle (l : List Char) : List Char :=
  match l with
  | '-' :: rest =>
    match titleScan [] rest with
    | some t => t
    | none => "Untitled".toList
  | _ => "Untitled".toList

/-- `title.replace(/\d+🍅/, '')`: remove the leftmost maximal digit run
immediately followed by the tomato mark. -/
def pomoScan (pre : List Char) : List Char → List Char
  | [] => pre
  | c :: rest =>
    if c.isDigit then
      match (c :: rest).drop ((c :: rest).takeWhile Char.isDigit).length with
      | t :: rest2 =>
        if t = '🍅' then pre ++ rest2 else pomoScan (pre ++ [c]) rest
      | [] => pomoScan (pre ++ [c]) rest
    else pomoScan (pre ++ [c]) rest

/-- `title.replace(/\d+🍅/, '').trim()`. -/
def cleanPomoTitle (t : List Char) : List Char := trimChars (pomoScan [] t)

/-- The fields of a parsed event that the line scan itself determines.  The
source additionally derives `id`/`start`/`end` from these strings plus the
note's date, and enriches `plannedPomodoros`/`taskPath`/`taskLine` from the
same line and the AI-planning table; none of that affects which lines yield
events or their category. -/
structure ParsedEvent where
  category : EventCategory
  title : List Char
  startStr : List Char
  endStr : List Char
deriving DecidableEq, Repr

/-- The line loop of `parseEventsFromContent`; the state is
`currentCategory`, which only a recognized heading ever changes. -/
def parseLoop : Option EventCategory → List (List Char) → List ParsedEvent
  | _, [] => []
  | cat, l :: rest =>
    match parseHeadingCategory l with
    | some c =>
      if isPre "-".toList (trimChars l) then
        match timePatternSearch l with
        | some r =>
          ⟨c, cleanPomoTitle (extractTitle l), r.1, r.2⟩ :: parseLoop (some c) rest
        | none => parseLoop (some c) rest
      else parseLoop (some c) rest
    | none =>
      match cat with
      | some c =>
        if isPre "-".toList (trimChars l) then
          match timePatternSearch l with
          | some r =>
            ⟨c, cleanPomoTitle (extractTitle l), r.1, r.2⟩ :: parseLoop cat rest
          | none => parseLoop cat rest
        else parseLoop cat rest
      | none => parseLoop cat rest

/-- `DailyNoteParser.parseEventsFromContent`. -/
def parseEventsFromContent (content : String) : List ParsedEvent :=
  parseLoop none (splitNl content.toList)

/-- Matches `\[startTime::\s*OLD1\s*\]\s*\[endTime::\s*OLD2\s*\]` at the head
of `cs` and returns the remainder.  Each greedy `\s*` is determinized as a
maximal whitespace munch, which is faithful because the interpolated time
strings produced by `formatTime` begin and end with digits. -/
def timeBlockMatch (old1 old2 cs : List Char) : Option (List Char) :=
  (expectPre "[startTime::".toList cs).bind fun r1 =>
  (expectPre old1 (skipWs r1)).bind fun r2 =>
  (expectPre "]".toList (skipWs r2)).bind fun r3 =>
  (expectPre "[endTime::".toList (skipWs r3)).bind fun r4 =>
  (expectPre old2 (skipWs r4)).bind fun r5 =>
  expectPre "]".toList (skipWs r5)

/-- Matches the exact update pattern
`^(-\s*TITLE\s*)\[startTime::\s*OLD1\s*\]\s*\[endTime::\s*OLD2\s*\](.*)$`
at a line start `cs`; returns `(g1, g2, rest)` where `g1`/`g2` are the two
capture groups and `rest` is the input left after the match (`(.*)$` stops
at the line end).  Determinized assuming the escaped title neither starts
nor ends with whitespace, as holds for parser-produced (trimmed) titles. -/
def exactMatchAt (title old1 old2 cs : List Char) : Option (List Char × List Char × List Char) :=
  (expectPre "-".toList cs).bind fun r1 =>
  (expectPre title (skipWs r1)).bind fun r2 =>
  (timeBlockMatch old1 old2 (skipWs r2)).bind fun r3 =>
  let g1 := cs.take (cs.length - (skipWs r2).length)
  let g2 := r3.takeWhile (fun ch => ch ≠ '\n')
  some (g1, g2, r3.drop g2.length)

/-- Lazy `.+?` scan for the relaxed pattern: the shortest nonempty run of
non-newline characters after which the startTime/endTime block matches.
Returns the core length (counted from `k`) and the remainder. -/
def scanCoreAux (old1 old2 : List Char) : List Char → Nat → Option (Nat × List Char)
  | [], _ => none
  | c :: rest, k =>
    if c = '\n' then none
    else
      match timeBlockMatch old1 old2 rest with
      | some r => some (k + 1, r)
      | none => scanCoreAux old1 old2 rest (k + 1)

/-- Backtracking of the greedy `\s*` after `-` against the lazy `.+?`:
try the longest whitespace run first, shrinking it until the core scan
succeeds, exactly as the JS engine backtracks. -/
def relaxedScanFrom (old1 old2 afterDash : List Char) : Nat → Option (Nat × List Char)
  | 0 => scanCoreAux old1 old2 afterDash 0
  | j + 1 =>
    match scanCoreAux old1 old2 (afterDash.drop (j + 1)) 0 with
    | some kr => some (j + 1 + kr.1, kr.2)
    | none => relaxedScanFrom old1 old2 afterDash j

/-- Matches the relaxed pattern
`^(-\s*.+?)\[startTime::\s*OLD1\s*\]\s*\[endTime::\s*OLD2\s*\](.*)$`
at a line start `cs`; returns `(g1, g2, matched, rest)` with the whole
matched text included, since the replacement callback inspects it. -/
def relaxedMatchAt (old1 old2 cs : List Char) :
    Option (List Char × List Char × List Char × List Char) :=
  (expectPre "-".toList cs).bind fun r1 =>
  (relaxedScanFrom old1 old2 r1 ((r1.takeWhile Char.isWhitespace).length)).bind fun kr =>
  let g1 := cs.take (cs.length - (r1.length - kr.1))
  let g2 := kr.2.takeWhile (fun ch => ch ≠ '\n')
  let rest := kr.2.drop g2.length
  some (g1, g2, cs.take (cs.length - rest.length), rest)

/-- Replacement text `[startTime:: NEW1] [endTime:: NEW2]` spliced between
the two capture groups. -/
def timeReplacement (new1 new2 : List Char) : List Char :=
  "[startTime:: ".toList ++ new1 ++ "] [endTime:: ".toList ++ new2 ++ "]".toList

/-- One `replace` step of the exact pass: on a match, `$1REPL$2`. -/
def exactReplacer (title old1 old2 new1 new2 cs : List Char) :
    Option (List Char × List Char) :=
  (exactMatchAt title old1 old2 cs).map fun r =>
    (r.1 ++ timeReplacement new1 new2 ++ r.2.1, r.2.2)

/-- One `replace` step of the relaxed pass: the callback substitutes only
when the whole matched text contains the title, else returns the match. -/
def relaxedReplacer (title old1 old2 new1 new2 cs : List Char) :
    Option (List Char × List Char) :=
  (relaxedMatchAt old1 old2 cs).map fun r =>
    (if containsSeq title r.2.2.1 then r.1 ++ timeReplacement new1 new2 ++ r.2.1
      else r.2.2.1, r.2.2.2)

/-- Global multiline `String.replace`: scan line starts left to right; on a
match emit the replacement and resume after the next newline (the `^`
anchor cannot fire mid-line), otherwise copy the line.  Fuel-based; the
callers supply `cs.length`, which bounds the number of lines. -/
def gmReplaceAux (m : List Char → Option (List Char × List Char)) :
    Nat → List Char → List Char
  | _, [] => []
  | 0, c :: cs => c :: cs
  | fuel + 1, c :: cs =>
    match m (c :: cs) with
    | some (repl, rest) =>
      let keep := rest.takeWhile (fun ch => ch ≠ '\n')
      match rest.drop keep.length with
      | [] => repl ++ keep
      | _ :: r2 => repl ++ keep ++ '\n' :: gmReplaceAux m fuel r2
    | none =>
      let line := (c :: cs).takeWhile (fun ch => ch ≠ '\n')
      match (c :: cs).drop line.length with
      | [] => line
      | _ :: r2 => line ++ '\n' :: gmReplaceAux m fuel r2

/-- `content.replace(pattern, repl)` with the `gm` flags. -/
def gmReplace (m : List Char → Option (List Char × List Char)) (cs : List Char) : List Char :=
  gmReplaceAux m cs.length cs

/-- Every line-start suffix of the document, as fed to a `^`-anchored
matcher. -/
def tailsJoin : List (List Char) → List (List Char)
  | [] => []
  | l :: rest => joinNl (l :: rest) :: tailsJoin rest

/-- `updateEventInDailyNote`: exact-pattern pass, then the relaxed pass,
then the explicit error. -/
def updateEventInDailyNote (title old1 old2 new1 new2 content : List Char) :
    Except String (List Char) :=
  if gmReplace (exactReplacer title old1 old2 new1 new2) content ≠ content then
    Except.ok (gmReplace (exactReplacer title old1 old2 new1 new2) content)
  else if gmReplace (relaxedReplacer title old1 old2 new1 new2) content ≠ content then
    Except.ok (gmReplace (relaxedReplacer title old1 old2 new1 new2) content)
  else
    Except.error ("Could not find event to update: " ++ String.mk title)

/-- The keep predicate of `removeEventFromDailyNote`'s line filter. -/
def removeKeepsLine (title startT endT line : List Char) : Bool :=
  !isPre "-".toList (trimChars line) ||
  !containsSeq ("[startTime:: ".toList ++ startT ++ "]".toList) line ||
  !containsSeq ("[endTime:: ".toList ++ endT ++ "]".toList) line ||
  !containsSeq title line

/-- `removeEventFromDailyNote`: filter out matching lines and rejoin;
the function has no failure path. -/
def removeEventFromDailyNote (title startT endT content : List Char) : List Char :=
  joinNl ((splitNl content).filter (removeKeepsLine title startT endT))

/-- The `insertIndex` loop of `addEventToDailyNote`: `none` models `-1`. -/
def findInsertIdx (heading : List Char) : Nat → Bool → Option Nat → List (List Char) → Option Nat
  | _, _, acc, [] => acc
  | i, inSec, acc, l :: rest =>
    if isPre heading (trimChars l) then
      findInsertIdx heading (i + 1) true (some (i + 1)) rest
    else if inSec && (isPre "### ".toList (trimChars l) || isPre "## ".toList (trimChars l)) then
      acc
    else if inSec && isPre "-".toList (trimChars l) && containsSeq "[startTime::".toList l then
      findInsertIdx heading (i + 1) inSec (some (i + 1)) rest
    else
      findInsertIdx heading (i + 1) inSec acc rest

/-- `lines.splice(idx, 0, x)`. -/
def spliceAt (idx : Nat) (x : List Char) (ls : List (List Char)) : List (List Char) :=
  ls.take idx ++ x :: ls.drop idx

/-- `addEventToDailyNote`: find the category heading's section, insert the
rendered event line, or throw when the heading is absent. -/
def addEventToDailyNote (e : MergeEvent) (content : List Char) : Except String (List Char) :=
  match findInsertIdx (sectionHeadings e.category) 0 false none (splitNl content) with
  | none =>
    Except.error ("Could not find section " ++ String.mk (sectionHeadings e.category) ++
      " in daily note")
  | some idx => Except.ok (joinNl (spliceAt idx (renderEventLine e) (splitNl content)))

theorem takeWhile_ne_nl_of_not_mem {l : List Char} (hl : '\n' ∉ l) :
    l.takeWhile (fun ch => ch ≠ '\n') = l := by
  induction l with
  | nil => rfl
  | cons c cs ih =>
    have hc : c ≠ '\n' := fun h => hl (h ▸ List.mem_cons_self c cs)
    have hcs : '\n' ∉ cs := fun h => hl (List.mem_cons_of_mem _ h)
    rw [List.takeWhile_cons, if_pos (by simp [hc]), ih hcs]

theorem takeWhile_ne_nl_append {l : List Char} (hl : '\n' ∉ l) (x : List Char) :
    (l ++ '\n' :: x).takeWhile (fun ch => ch ≠ '\n') = l := by
  induction l with
  | nil => simp [List.takeWhile_cons]
  | cons c cs ih =>
    have hc : c ≠ '\n' := fun h => hl (h ▸ List.mem_cons_self c cs)
    have hcs : '\n' ∉ cs := fun h => hl (List.mem_cons_of_mem _ h)
    rw [List.cons_append, List.takeWhile_cons, if_pos (by simp [hc]), ih hcs]

theorem gmReplaceAux_step_none (m : List Char → Option (List Char × List Char))
    (fuel : Nat) (cs : List Char) (hcs : cs ≠ []) (hm : m cs = none) :
    gmReplaceAux m (fuel + 1) cs =
      (let line := cs.takeWhile (fun ch => ch ≠ '\n')
       match cs.drop line.length with
       | [] => line
       | _ :: r2 => line ++ '\n' :: gmReplaceAux m fuel r2) := by
  cases cs with
  | nil => exact absurd rfl hcs
  | cons c cs' => simp only [gmReplaceAux, hm]

theorem gmReplaceAux_id (m : List Char → Option (List Char × List Char)) :
    ∀ (lines : List (List Char)), (∀ l ∈ lines, '\n' ∉ l) →
      (∀ t ∈ tailsJoin lines, m t = none) →
      ∀ fuel, (joinNl lines).length ≤ fuel →
      gmReplaceAux m fuel (joinNl lines) = joinNl lines := by
  intro lines
  induction lines with
  | nil =>
    intro _ _ fuel _
    cases fuel <;> rfl
  | cons l rest ih =>
    intro hnl hmt fuel hfuel
    have hml : m (joinNl (l :: rest)) = none := hmt _ (by simp [tailsJoin])
    have hl : '\n' ∉ l := hnl l (by simp)
    cases rest with
    | nil =>
      cases hle : l with
      | nil => cases fuel <;> rfl
      | cons a as =>
        rw [← hle]
        have hlne : l ≠ [] := by rw [hle]; simp
        cases fuel with
        | zero =>
          exfalso
          rw [show joinNl [l] = l from rfl, hle] at hfuel
          simp at hfuel
        | succ f =>
          rw [show joinNl [l] = l from rfl] at hml ⊢
          rw [gmReplaceAux_step_none m f l hlne hml]
          rw [takeWhile_ne_nl_of_not_mem hl]
          simp [List.drop_length]
    | cons r rs =>
      have hjoin : joinNl (l :: r :: rs) = l ++ '\n' :: joinNl (r :: rs) := rfl
      cases fuel with
      | zero =>
        exfalso
        rw [hjoin] at hfuel
        simp at hfuel
      | succ f =>
        rw [hjoin] at hml ⊢
        rw [gmReplaceAux_step_none m f _ (by simp) hml]
        rw [takeWhile_ne_nl_append hl]
        have h2 : (l ++ '\n' :: joinNl (r :: rs)).drop l.length = '\n' :: joinNl (r :: rs) :=
          List.drop_left l ('\n' :: joinNl (r :: rs))
        simp only [h2]
        rw [ih (fun x hx => hnl x (by simp [hx]))
          (fun t ht => hmt t (by simp [tailsJoin]; right; simpa [tailsJoin] using ht))
          f (by rw [hjoin] at hfuel; simp at hfuel ⊢; omega)]

theorem gmReplace_id (m : List Char → Option (List Char × List Char)) (content : List Char)
    (h : ∀ t ∈ tailsJoin (splitNl content), m t = none) :
    gmReplace m content = content := by
  have hnl := splitNl_no_newline content
  have hj := joinNl_splitNl content
  unfold gmReplace
  conv_lhs => rw [← hj]
  rw [gmReplaceAux_id m (splitNl content) hnl h (joinNl (splitNl content)).length le_rfl]
  exact hj

theorem findInsertIdx_none (heading : List Char) :
    ∀ (lines : List (List Char)) (i : Nat),
      (∀ l ∈ lines, isPre heading (trimChars l) = false) →
      findInsertIdx heading i false none lines = none := by
  intro lines
  induction lines with
  | nil => intro i _; rfl
  | cons l rest ih =>
    intro i hl
    have h0 : isPre heading (trimChars l) = false := hl l (by simp)
    simp only [findInsertIdx, h0, Bool.false_eq_true, if_false, Bool.false_and, Bool.and_self]
    exact ih (i + 1) (fun x hx => hl x (by simp [hx]))

/-- Counterexample to C3 as stated: `removeEventFromDailyNote` has no error
path at all — on a document with no matching line it returns the content
unchanged, a silent no-op rather than a user-visible failure. -/
theorem removeEvent_silent_noop :
    removeEventFromDailyNote "Standup".toList "09:00".toList "10:00".toList
      "# Notes\n- other stuff".toList = "# Notes\n- other stuff".toList := by decide

/-- C3 (actual behaviour): `updateEventInDailyNote` raises the explicit
error `Could not find event to update` when no line-start position matches
either the exact or the relaxed pattern, and `addEventToDailyNote` raises
`Could not find section ... in daily note` when no line starts with the
category heading; but `removeEventFromDailyNote` never fails — when every
line is kept by its filter it returns the document unchanged as a silent
no-op, contrary to the required explicit failure. -/
theorem singleEventOps_error_behaviour :
    (∀ title old1 old2 new1 new2 content : List Char,
      (∀ t ∈ tailsJoin (splitNl content),
        exactMatchAt title old1 old2 t = none ∧ relaxedMatchAt old1 old2 t = none) →
      updateEventInDailyNote title old1 old2 new1 new2 content =
        Except.error ("Could not find event to update: " ++ String.mk title)) ∧
    (∀ (e : MergeEvent) (content : List Char),
      (∀ l ∈ splitNl content, isPre (sectionHeadings e.category) (trimChars l) = false) →
      addEventToDailyNote e content =
        Except.error ("Could not find section " ++ String.mk (sectionHeadings e.category) ++
          " in daily note")) ∧
    (∀ title startT endT content : List Char,
      (∀ l ∈ splitNl content, removeKeepsLine title startT endT l = true) →
      removeEventFromDailyNote title startT endT content = content) := by
  refine ⟨?_, ?_, ?_⟩
  · intro title old1 old2 new1 new2 content h
    have hex : gmReplace (exactReplacer title old1 old2 new1 new2) content = content :=
      gmReplace_id _ content (fun t ht => by
        unfold exactReplacer
        rw [(h t ht).1]
        rfl)
    have hrel : gmReplace (relaxedReplacer title old1 old2 new1 new2) content = content :=
      gmReplace_id _ content (fun t ht => by
        unfold relaxedReplacer
        rw [(h t ht).2]
        rfl)
    unfold updateEventInDailyNote
    rw [hex, hrel]
    simp
  · intro e content h
    unfold addEventToDailyNote
    rw [findInsertIdx_none (sectionHeadings e.category) (splitNl content) 0 h]
  · intro title startT endT content h
    unfold removeEventFromDailyNote
    rw [List.filter_eq_self.mpr h, joinNl_splitNl]

theorem singleEventOps_error_behaviour_witness :
    updateEventInDailyNote "Standup".toList "09:00".toList "10:00".toList
        "11:00".toList "11:30".toList "nothing here".toList =
      Except.error ("Could not find event to update: " ++ String.mk "Standup".toList) ∧
    addEventToDailyNote
        ⟨"报销".toList, 0, 0, EventCategory.admin, none, none⟩ "no headings".toList =
      Except.error ("Could not find section " ++
        String.mk (sectionHeadings EventCategory.admin) ++ " in daily note") ∧
    removeEventFromDailyNote "X".toList "08:00".toList "09:00".toList
        "- other [startTime:: 07:00] [endTime:: 07:30]".toList =
      "- other [startTime:: 07:00] [endTime:: 07:30]".toList :=
  ⟨singleEventOps_error_behaviour.1 "Standup".toList "09:00".toList "10:00".toList
      "11:00".toList "11:30".toList "nothing here".toList (by decide),
    singleEventOps_error_behaviour.2.1
      ⟨"报销".toList, 0, 0, EventCategory.admin, none, none⟩ "no headings".toList (by decide),
    singleEventOps_error_behaviour.2.2 "X".toList "08:00".toList "09:00".toList
      "- other [startTime:: 07:00] [endTime:: 07:30]".toList (by decide)⟩
